import Mathlib

/-!
Verification development for the biotite hydrogen-bond detector
(`src/biotite/structure/hbond.py`) and the PDBx structured-text store
(`src/biopython/structure/io/pdbx/file.py`).

The hydrogen-bond pipeline is embedded over an abstract coordinate type
`α` together with two Boolean predicates standing for the two uses of the
external geometry module (`biotite.structure.geometry`, which is not part
of the two source files): `near p q` stands for the donor-hydrogen
association test `0 <= distance(p, q) <= 1.5` used by
`_get_bonded_hydrogen`, and `crit d h a` stands for the pointwise
geometric criterion `_is_hbond(d, h, a, cutoff_dist, cutoff_angle)`.
The real-valued criterion itself is embedded separately (`is_hbond`).

A boolean matrix of shape M x T (M models, T triplets) is represented as a
list of M rows, each a list of T booleans, mirroring the numpy layout.
-/

namespace Biotite

/-- A D-H..A triplet of atom indices (donor, hydrogen, acceptor). -/
abbrev Triplet := Nat × Nat × Nat

/-- Embedding of the relevant fields of `AtomArrayStack`: per-atom element
symbol and residue id (shared by all models), and per-model coordinate
lists (`coord : M models × N atoms`), with coordinates abstract. -/
structure AtomArrayStack (α : Type) where
  element : List String
  res_id : List Int
  coord : List (List α)

/-- `atoms.array_length()`: the number of atoms. -/
def AtomArrayStack.array_length {α : Type} (a : AtomArrayStack α) : Nat :=
  a.element.length

/-- `len(atoms)` for a stack: the number of models. -/
def AtomArrayStack.nModels {α : Type} (a : AtomArrayStack α) : Nat :=
  a.coord.length

/-- `np.where(mask)[0]`: the ascending list of indices at which the mask
holds. -/
def whereTrue : List Bool → List Nat
  | [] => []
  | b :: rest =>
    if b then 0 :: (whereTrue rest).map (· + 1) else (whereTrue rest).map (· + 1)

/-- numpy boolean-mask selection `xs[sel]`: keep the entries whose mask
position is true. -/
def boolSelect {β : Type} (xs : List β) (sel : List Bool) : List β :=
  (xs.zip sel).filterMap (fun p => if p.2 then some p.1 else none)

/-- Column `t` of a row-major boolean matrix contains at least one `true`
(`mask.any(axis=0)` at column `t`).  Out-of-range entries read as
`false`. -/
def colAny (mask : List (List Bool)) (t : Nat) : Bool :=
  mask.any (fun row => row.getD t false)

/-- `np.empty((m, n), dtype=np.bool)`: allocates an `m × n` boolean matrix
without initializing it, so its contents are arbitrary.  Modelled as
all-`False` (the shape is the meaningful part). -/
def npEmptyBool (m n : Nat) : List (List Bool) :=
  List.replicate m (List.replicate n false)

/-- Embedding of `_get_bonded_hydrogen(atoms[0], donor_mask)`: for every
donor index (in ascending mask order), the ascending list of indices `j`
such that atom `j` is a hydrogen in the donor's residue passing the
distance test `near` on the first model's coordinates. -/
def get_bonded_hydrogen {α : Type} [Inhabited α] (near : α → α → Bool)
    (element : List String) (res_id : List Int) (coord0 : List α)
    (donor_mask : List Bool) : List (List Nat) :=
  (whereTrue donor_mask).map (fun d =>
    whereTrue ((List.range element.length).map (fun j =>
      (element.getD j "" == "H") && (res_id.getD j 0 == res_id.getD d 0)
        && near (coord0.getD d default) (coord0.getD j default))))

/-- Embedding of `_get_triplets`: donor/hydrogen doublets crossed with all
acceptors, dropping triplets with `donor == acceptor`.  When the doublet
list is non-empty and the acceptor list is empty, the source computes
`int(doublets.shape[0] / acceptor_i.shape[0])` and raises
`ZeroDivisionError`. -/
def get_triplets (donor_i : List Nat) (donor_hs_i : List (List Nat))
    (acceptor_i : List Nat) : Except String (List Triplet) :=
  let doublets := (donor_i.zip donor_hs_i).flatMap
    (fun p => p.2.map (fun h => (p.1, h)))
  if doublets.isEmpty then .ok []
  else if acceptor_i.isEmpty then .error "ZeroDivisionError"
  else .ok ((doublets.flatMap (fun dh =>
      acceptor_i.map (fun acc => (dh.1, dh.2, acc)))).filter
    (fun t => t.1 != t.2.2))

/-- Ternary pointwise zip, used to apply the geometric criterion to three
equally shaped coordinate collections. -/
def zipWith3 {β γ δ ε : Type} (f : β → γ → δ → ε) :
    List β → List γ → List δ → List ε
  | b :: bs, c :: cs, d :: ds => f b c d :: zipWith3 f bs cs ds
  | _, _, _ => []

/-- Vectorized strategy (lines 264-269): build the three `M × T` stacks
`atoms[:, triplets[:, k]]` by fancy indexing and apply `_is_hbond` once;
the geometry primitives broadcast the test pointwise over the grids. -/
def maskVectorized {α : Type} [Inhabited α] (crit : α → α → α → Bool)
    (coord : List (List α)) (triplets : List Triplet) : List (List Bool) :=
  let donor_atoms := coord.map (fun frame =>
    triplets.map (fun t => frame.getD t.1 default))
  let donor_h_atoms := coord.map (fun frame =>
    triplets.map (fun t => frame.getD t.2.1 default))
  let acceptor_atoms := coord.map (fun frame =>
    triplets.map (fun t => frame.getD t.2.2 default))
  zipWith3 (fun dr hr ar => zipWith3 crit dr hr ar)
    donor_atoms donor_h_atoms acceptor_atoms

/-- Per-model loop strategy (lines 270-278): `np.full((M, T), False)` and
then, for every frame, evaluate `_is_hbond` on that frame's selected
atoms and assign the resulting row. -/
def maskPerFrame {α : Type} [Inhabited α] (crit : α → α → α → Bool)
    (coord : List (List α)) (triplets : List Triplet) : List (List Bool) :=
  (List.range coord.length).map (fun frame =>
    let fr := coord.getD frame []
    zipWith3 crit (triplets.map (fun t => fr.getD t.1 default))
      (triplets.map (fun t => fr.getD t.2.1 default))
      (triplets.map (fun t => fr.getD t.2.2 default)))

/-- The candidate-triplet phase of `_hbond` (lines 198-257): filter the
selections by donor/acceptor elements, associate hydrogens to donors on
the first model, and build the candidate triplets. -/
def passCandidates {α : Type} [Inhabited α] (near : α → α → Bool)
    (atoms : AtomArrayStack α) (donor_selection acceptor_selection : List Bool)
    (donor_elements acceptor_elements : List String) :
    Except String (List Triplet) :=
  let dsel := List.zipWith (fun b e => b && donor_elements.contains e)
    donor_selection atoms.element
  let asel := List.zipWith (fun b e => b && acceptor_elements.contains e)
    acceptor_selection atoms.element
  let donor_i := whereTrue dsel
  let acceptor_i := whereTrue asel
  let donor_hs_i := get_bonded_hydrogen near atoms.element atoms.res_id
    (atoms.coord.getD 0 []) dsel
  get_triplets donor_i donor_hs_i acceptor_i

/-- Embedding of `_hbond` (lines 187-285): candidate triplets, the
degenerate empty branch returning `np.empty((len(atoms), 3))` as mask,
the vectorized-or-per-frame geometric test, and the pruning of triplets
never counted in any model. -/
def hbondPass {α : Type} [Inhabited α] (near : α → α → Bool)
    (crit : α → α → α → Bool) (atoms : AtomArrayStack α)
    (donor_selection acceptor_selection : List Bool)
    (donor_elements acceptor_elements : List String) (vectorized : Bool) :
    Except String (List Triplet × List (List Bool)) :=
  match passCandidates near atoms donor_selection acceptor_selection
      donor_elements acceptor_elements with
  | .error e => .error e
  | .ok triplets =>
    if triplets.isEmpty then .ok (triplets, npEmptyBool atoms.nModels 3)
    else
      let hbond_mask := if vectorized then maskVectorized crit atoms.coord triplets
        else maskPerFrame crit atoms.coord triplets
      let is_counted := (List.range triplets.length).map (fun t => colAny hbond_mask t)
      .ok (boolSelect triplets is_counted,
        hbond_mask.map (fun row => boolSelect row is_counted))

/-- `selection1_type -> selection2_type` resolution (lines 120-128):
the complement of the role, `'both'` mapping to itself, anything else a
`ValueError`. -/
def resolveSelection2Type : String → Option String
  | "both" => some "both"
  | "acceptor" => some "donor"
  | "donor" => some "acceptor"
  | _ => none

/-- `build_donor_acceptor_selections` (lines 131-144): a `None` selection
defaults to all atoms; the donor (resp. acceptor) role mask is the
selection when the type includes that role and all-`False` otherwise. -/
def buildSelections {α : Type} (atoms : AtomArrayStack α)
    (selection : Option (List Bool)) (selection_type : String) :
    List Bool × List Bool :=
  let s := selection.getD (List.replicate atoms.array_length true)
  ((if selection_type == "both" || selection_type == "donor" then s
    else List.replicate atoms.array_length false),
   (if selection_type == "both" || selection_type == "acceptor" then s
    else List.replicate atoms.array_length false))

/-- Lexicographic comparison of triplets, the row order produced by
`np.unique(..., axis=0)`. -/
def tripLe (a b : Triplet) : Bool :=
  a.1 < b.1 || (a.1 == b.1 && (a.2.1 < b.2.1
    || (a.2.1 == b.2.1 && a.2.2 ≤ b.2.2)))

/-- Insertion into a `tripLe`-sorted list. -/
def insertTriplet (x : Triplet) : List Triplet → List Triplet
  | [] => [x]
  | y :: ys => if tripLe x y then x :: y :: ys else y :: insertTriplet x ys

/-- Sort a triplet list lexicographically. -/
def sortTriplets (l : List Triplet) : List Triplet :=
  l.foldr insertTriplet []

/-- `np.unique(triplets, axis=0, return_index=True)`: the
lexicographically sorted distinct rows, together with the index of each
row's first occurrence in the input. -/
def npUniqueRows (ts : List Triplet) : List Triplet × List Nat :=
  let u := sortTriplets ts.dedup
  (u, u.map (fun t => ts.indexOf t))

/-- The body of `hbond` after the selection-type resolution
(lines 130-184): build the role masks, run the first directional pass,
run the second pass with the roles swapped unless the built selections
are identical, concatenate, and deduplicate the triplets (selecting the
matching mask columns by the first-occurrence indices). -/
def hbondResolved {α : Type} [Inhabited α] (near : α → α → Bool)
    (crit : α → α → α → Bool) (atoms : AtomArrayStack α)
    (selection1 selection2 : Option (List Bool))
    (selection1_type selection2_type : String)
    (donor_elements acceptor_elements : List String) (vectorized : Bool) :
    Except String (List Triplet × List (List Bool)) :=
  let p1 := buildSelections atoms selection1 selection1_type
  let p2 := buildSelections atoms selection2 selection2_type
  match hbondPass near crit atoms p1.1 p2.2 donor_elements acceptor_elements
      vectorized with
  | .error e => .error e
  | .ok r1 =>
    if p1.1 == p2.1 && p1.2 == p2.2 then .ok r1
    else
      match hbondPass near crit atoms p2.1 p1.2 donor_elements
          acceptor_elements vectorized with
      | .error e => .error e
      | .ok r2 =>
        let triplets := r1.1 ++ r2.1
        let mask := List.zipWith (· ++ ·) r1.2 r2.2
        if triplets.isEmpty then .ok (triplets, mask)
        else
          let u := npUniqueRows triplets
          .ok (u.1, mask.map (fun row => u.2.map (fun idx => row.getD idx false)))

/-- Embedding of `hbond` (lines 17-184) on a stack: resolve the selection
types (`ValueError` on an unknown type) and run the directional
passes. -/
def hbond {α : Type} [Inhabited α] (near : α → α → Bool)
    (crit : α → α → α → Bool) (atoms : AtomArrayStack α)
    (selection1 selection2 : Option (List Bool)) (selection1_type : String)
    (donor_elements acceptor_elements : List String) (vectorized : Bool) :
    Except String (List Triplet × List (List Bool)) :=
  match resolveSelection2Type selection1_type with
  | none => .error "ValueError"
  | some selection2_type =>
    hbondResolved near crit atoms selection1 selection2 selection1_type
      selection2_type donor_elements acceptor_elements vectorized

/-- Per-column count of `true` entries (`mask.sum(axis=0)`).  Summation of
an empty list of rows is `[]` here; `hbond_frequency` is only applied to
masks with at least one row. -/
def colSums : List (List Bool) → List Nat
  | [] => []
  | [r] => r.map (fun b => if b then 1 else 0)
  | r :: rs => List.zipWith (· + ·)
      (r.map (fun b => if b then 1 else 0)) (colSums rs)

/-- Embedding of `hbond_frequency` (line 322):
`mask.sum(axis=0) / len(mask)`. -/
def hbond_frequency (mask : List (List Bool)) : List ℚ :=
  (colSums mask).map (fun s : Nat => (s : ℚ) / (mask.length : ℚ))

/-- The common pointwise form of the two mask strategies: entry `(m, t)`
is the criterion evaluated on model `m` at triplet `t`. -/
def maskPointwise {α : Type} [Inhabited α] (crit : α → α → α → Bool)
    (coord : List (List α)) (triplets : List Triplet) : List (List Bool) :=
  coord.map (fun fr =>
    triplets.map (fun t => crit (fr.getD t.1 default) (fr.getD t.2.1 default)
      (fr.getD t.2.2 default)))

/-- Per-column count of `true` entries of column `t`, as a specification
value for `colSums`. -/
def colCount (mask : List (List Bool)) (t : Nat) : Nat :=
  (mask.map (fun row => row.getD t false)).count true

/-- Modelled from the spec: 3D dot product.  The geometry primitives
(`biotite.structure.geometry.distance` / `angle`) are external
collaborators not contained in the two source files; the spec defines the
criterion through `θ = ∠(D, H, A)` and `d = |H − A|`. -/
noncomputable def dot3 (u v : ℝ × ℝ × ℝ) : ℝ :=
  u.1 * v.1 + u.2.1 * v.2.1 + u.2.2 * v.2.2

/-- Modelled from the spec: componentwise difference of 3D points. -/
noncomputable def sub3 (u v : ℝ × ℝ × ℝ) : ℝ × ℝ × ℝ :=
  (u.1 - v.1, u.2.1 - v.2.1, u.2.2 - v.2.2)

/-- Modelled from the spec: Euclidean norm of a 3D vector. -/
noncomputable def norm3 (u : ℝ × ℝ × ℝ) : ℝ :=
  Real.sqrt (dot3 u u)

/-- Modelled from the spec: `distance(p, q) = |p − q|`. -/
noncomputable def distance3 (p q : ℝ × ℝ × ℝ) : ℝ :=
  norm3 (sub3 p q)

/-- Modelled from the spec: `angle(a, b, c) = ∠(a, b, c)`, the angle at
vertex `b`, computed as the arccosine of the normalized dot product. -/
noncomputable def angle3 (a b c : ℝ × ℝ × ℝ) : ℝ :=
  Real.arccos (dot3 (sub3 a b) (sub3 c b)
    / (norm3 (sub3 a b) * norm3 (sub3 c b)))

/-- `np.deg2rad`. -/
noncomputable def deg2rad (x : ℝ) : ℝ :=
  x * Real.pi / 180

/-- Embedding of `_is_hbond` (lines 325-362):
`theta > deg2rad(cutoff_angle) and dist(H, A) <= cutoff_dist`. -/
def is_hbond (donor donor_h acceptor : ℝ × ℝ × ℝ)
    (cutoff_dist cutoff_angle : ℝ) : Prop :=
  deg2rad cutoff_angle < angle3 donor donor_h acceptor ∧
    distance3 donor_h acceptor ≤ cutoff_dist

end Biotite

/-!
Embedding of the PDBx structured-text store
(`src/biopython/structure/io/pdbx/file.py`).  Python strings are modelled
as lists of characters, so that the `line[0]`/slice manipulations of the
source translate directly. -/

namespace PDBx

/-- A text line, as a list of characters. -/
abbrev Line := List Char

/-- `s.startswith(p)`. -/
def strStarts : Line → Line → Bool
  | _, [] => true
  | [], _ :: _ => false
  | c :: cs, p :: ps => c == p && strStarts cs ps

/-- `_is_empty` (line 321): empty line or comment line. -/
def is_empty_line (line : Line) : Bool :=
  line.isEmpty || strStarts line ['#']

/-- `_data_block_name` (line 325): the part after a `data_` prefix. -/
def data_block_name (line : Line) : Option Line :=
  if strStarts line ['d', 'a', 't', 'a', '_'] then some (line.drop 5) else none

/-- `_is_loop_start` (line 331). -/
def is_loop_start (line : Line) : Bool :=
  strStarts line ['l', 'o', 'o', 'p', '_']

/-- `_is_multi` (line 335): multiline-value marker; quote markers count
only outside loop categories. -/
def is_multi (line : Line) (isLoop : Bool) : Bool :=
  if isLoop then strStarts line [';']
  else strStarts line [';'] || strStarts line [Char.ofNat 39]
    || strStarts line [Char.ofNat 34]

/-- Position of the first `.` in a line (`line.find "." `), or `none`
where Python returns `-1`. -/
def findDotAux : Nat → Line → Option Nat
  | _, [] => none
  | k, c :: rest => if c == '.' then some k else findDotAux (k + 1) rest

/-- `_get_category_name` (line 342): `None` unless the line starts with
`_`; otherwise `line[1:line.find(".")]` — note that when the line has no
`.`, Python's `find` returns `-1` and the slice drops the final
character. -/
def get_category_name (line : Line) : Option Line :=
  if strStarts line ['_'] then
    some (match findDotAux 0 line with
      | some k => (line.drop 1).take (k - 1)
      | none => (line.drop 1).dropLast)
  else none

/-- A category index entry: `{start, stop, loop, multiline}`. -/
structure Category where
  start : Int
  stop : Int
  loop : Bool
  multiline : Bool
deriving DecidableEq

/-- Key of the category index: `(data_block, category_name)`. -/
abbrev CatKey := Line × Line

/-- The category index `_categories`, an insertion-ordered dictionary. -/
abbrev CatIndex := List (CatKey × Category)

/-- Python dict assignment `d[k] = v`: replace in place when the key
exists, append otherwise. -/
def dictInsert (d : CatIndex) (k : CatKey) (v : Category) : CatIndex :=
  if d.any (fun e => e.1 == k) then
    d.map (fun e => if e.1 == k then (k, v) else e)
  else d ++ [(k, v)]

/-- Python dict lookup `d[(block, category)]`, `none` for `KeyError`. -/
def lookup2 (d : CatIndex) (k : CatKey) : Option Category :=
  (d.find? (fun e => e.1 == k)).map (fun e => e.2)

/-- `_add_category` (lines 266-276): record the entry unless the category
name is `None`. -/
def add_category (cats : CatIndex) (block : Line) (category_name : Option Line)
    (start stop : Int) (isLoop multiline : Bool) : CatIndex :=
  match category_name with
  | none => cats
  | some nm => dictInsert cats (block, nm) ⟨start, stop, isLoop, multiline⟩

/-- The parser state of `PDBxFile.read` (lines 28-33).  `data_block`
models the Python local variable `data_block`, which is unbound
(`none`) until the first `data_` line; dereferencing it while unbound
raises `NameError`. -/
structure ReadState where
  data_block : Option Line
  current_category : Option Line
  start : Int
  stop : Int
  is_loop : Bool
  has_multiline : Bool
  categories : CatIndex
deriving DecidableEq

/-- One iteration of the scanning loop of `PDBxFile.read`
(lines 34-68) on the enumerated line `(i, line)`. -/
def readStep (lines : List Line) (st : ReadState) (p : Nat × Line) :
    Except String ReadState :=
  let i := p.1
  let line := p.2
  if is_empty_line line then .ok st
  else
    let st1 := match data_block_name line with
      | some nm =>
        { st with
            data_block := some nm
            current_category := none
            start := -1
            stop := -1
            is_loop := false
            has_multiline := false }
      | none => st
    let loopInLine := is_loop_start line
    let categoryInLine := get_category_name line
    if loopInLine || (categoryInLine != st1.current_category && categoryInLine.isSome) then
      match st1.data_block with
      | none => .error "NameError"
      | some db =>
        let stopLine : Int := (i : Int)
        let cats := add_category st1.categories db st1.current_category st1.start
          stopLine st1.is_loop st1.has_multiline
        match (if loopInLine then
            match lines[i + 1]? with
            | none => .error "IndexError"
            | some nxt => .ok (get_category_name nxt)
          else .ok categoryInLine : Except String (Option Line)) with
        | .error e => .error e
        | .ok newcat =>
          let st2 : ReadState :=
            { data_block := some db
              current_category := newcat
              start := (i : Int)
              stop := stopLine
              is_loop := loopInLine
              has_multiline := false
              categories := cats }
          .ok (if is_multi line st2.is_loop then { st2 with has_multiline := true } else st2)
    else
      .ok (if is_multi line st1.is_loop then { st1 with has_multiline := true } else st1)

/-- Embedding of `PDBxFile.read` after the line split (lines 28-75):
fold the scanning step over the enumerated lines, then record the final
category with `stop = len(lines)`. -/
def readLines (lines : List Line) : Except String CatIndex :=
  match lines.enum.foldlM (readStep lines)
      ⟨none, none, -1, -1, false, false, []⟩ with
  | .error e => .error e
  | .ok st =>
    match st.data_block with
    | none => .error "NameError"
    | some db => .ok (add_category st.categories db st.current_category st.start
        (lines.length : Int) st.is_loop st.has_multiline)

/-- The stored state of a `PDBxFile`: the raw lines and the category
index. -/
structure PDBxFile where
  lines : List Line
  categories : CatIndex
deriving DecidableEq

/-- Embedding of `PDBxFile.copy` (lines 260-263): the body dereferences
the global name `copy`, but the module only imports `shlex`, `numpy` and
`File` (lines 6-8), so the call raises `NameError` before reading or
writing any state.  The first component is the receiver's state after
the call, the second the call's outcome. -/
def PDBxFile.copy (f : PDBxFile) : PDBxFile × Except String PDBxFile :=
  (f, .error "NameError")

/-- The shift pass of `set_category` (lines 246-251): every stored
category whose `start` is beyond the insertion point is moved by the net
line-count delta. -/
def shift_categories (category_start len_diff : Int) (cats : CatIndex) : CatIndex :=
  cats.map (fun e => if category_start < e.2.start then
    (e.1, { e.2 with start := e.2.start + len_diff, stop := e.2.stop + len_diff })
    else e)

/-- `last_stop` of a block (lines 218-222): the maximal `stop` among the
block's categories, starting from `0`. -/
def lastStopOfBlock (cats : CatIndex) (block : Line) : Int :=
  cats.foldl (fun acc e => if block == e.1.1 && acc < e.2.stop then e.2.stop else acc) 0

/-- `last_stop` of the whole file (lines 236-239). -/
def lastStopAll (cats : CatIndex) : Int :=
  cats.foldl (fun acc e => if acc < e.2.stop then e.2.stop else acc) 0

/-- Placement phase of `set_category` (lines 192-251), taking the
rendered category lines (lines 143-191, without the terminating `#`
comment line, which is appended here as in line 193) as input: replace
the category's old line range in place, or append after the block's last
category, or append a new block, then shift the index entries after the
insertion point. -/
def set_category_place (f : PDBxFile) (block category : Line)
    (rendered : List Line) (isLooped : Bool) : PDBxFile :=
  let new_lines := rendered ++ [['#']]
  match f.categories.find? (fun e => e.1 == (block, category)) with
  | some entry =>
    let info := entry.2
    let category_start := info.start
    let len_diff : Int := (new_lines.length : Int) - (info.stop - info.start)
    let lines1 := f.lines.take info.start.toNat ++ new_lines ++ f.lines.drop info.stop.toNat
    let cats1 := f.categories.map (fun e => if e.1 == (block, category) then
      (e.1, (⟨category_start, category_start + (new_lines.length : Int), isLooped, false⟩ : Category))
      else e)
    ⟨lines1, shift_categories category_start len_diff cats1⟩
  | none =>
    if f.categories.any (fun e => e.1.1 == block) then
      let category_start := lastStopOfBlock f.categories block
      let len_diff : Int := (new_lines.length : Int)
      let lines1 := f.lines.take category_start.toNat ++ new_lines
        ++ f.lines.drop category_start.toNat
      let cats1 := dictInsert f.categories (block, category)
        ⟨category_start, category_start + (new_lines.length : Int), isLooped, false⟩
      ⟨lines1, shift_categories category_start len_diff cats1⟩
    else
      let new_lines2 := [['d', 'a', 't', 'a', '_'] ++ block, ['#']] ++ new_lines
      let last_stop := lastStopAll f.categories
      let category_start := last_stop + 2
      let category_stop := last_stop + (new_lines2.length : Int)
      let len_diff : Int := (new_lines2.length : Int) - 2
      let lines1 := f.lines.take last_stop.toNat ++ new_lines2
        ++ f.lines.drop last_stop.toNat
      let cats1 := dictInsert f.categories (block, category)
        ⟨category_start, category_stop, isLooped, false⟩
      ⟨lines1, shift_categories category_start len_diff cats1⟩

/-- The insertion point of a `set_category` edit (`category_start` in
each of the three placement branches). -/
def edit_point (f : PDBxFile) (block category : Line) : Int :=
  match f.categories.find? (fun e => e.1 == (block, category)) with
  | some entry => entry.2.start
  | none =>
    if f.categories.any (fun e => e.1.1 == block) then
      lastStopOfBlock f.categories block
    else lastStopAll f.categories + 2

/-- The end of the replaced line range of a `set_category` edit (the old
`stop` when replacing, the insertion point when inserting). -/
def edit_end (f : PDBxFile) (block category : Line) : Int :=
  match f.categories.find? (fun e => e.1 == (block, category)) with
  | some entry => entry.2.stop
  | none => edit_point f block category

/-- The net line-count delta (`len_diff`) of a `set_category` edit with
the given rendered lines. -/
def edit_delta (f : PDBxFile) (block category : Line) (rendered : List Line) : Int :=
  match f.categories.find? (fun e => e.1 == (block, category)) with
  | some entry => ((rendered.length : Int) + 1) - (entry.2.stop - entry.2.start)
  | none => (rendered.length : Int) + 1

/-- Python `s.split(c)` for a single-character separator. -/
def splitOnChar (c : Char) : Line → List Line
  | [] => [[]]
  | x :: rest =>
    let r := splitOnChar c rest
    if x == c then [] :: r
    else (x :: r.headD []) :: r.tail

/-- Tokenization of a loop value line.  Models `shlex.split` restricted
to quote-free input: split on spaces, dropping empty fields. -/
def shlexTokens (l : Line) : List Line :=
  (splitOnChar ' ' l).filter (fun t => !t.isEmpty)

/-- The state of `_process_looped` (lines 289-295): the result dictionary
(with pessimistically allocated rows), the key list, the row index `i`,
the key index `j`, and `keys_length`. -/
structure LoopedState where
  dict : List (Line × List Line)
  keys : List Line
  i : Nat
  j : Nat
  keysLength : Nat
deriving DecidableEq

/-- Python dict assignment for the loop dictionary. -/
def dictInsertL (d : List (Line × List Line)) (k : Line) (v : List Line) :
    List (Line × List Line) :=
  if d.any (fun e => e.1 == k) then d.map (fun e => if e.1 == k then (k, v) else e)
  else d ++ [(k, v)]

/-- In-place update of one dictionary entry's array
(`category_dict[keys[j]][i] = value`). -/
def dictModifyL (d : List (Line × List Line)) (k : Line)
    (g : List Line → List Line) : List (Line × List Line) :=
  d.map (fun e => if e.1 == k then (k, g e.2) else e)

/-- Processing of one value token (lines 307-314): write it at row `i` of
column `keys[j]`, then advance `j`, wrapping to the next row after the
last key. -/
def loopToken (st : LoopedState) (value : Line) : LoopedState :=
  let key := st.keys.getD st.j []
  let d := dictModifyL st.dict key (fun arr => arr.set st.i value)
  if st.j + 1 == st.keysLength then { st with dict := d, j := 0, i := st.i + 1 }
  else { st with dict := d, j := st.j + 1 }

/-- Processing of one line of `_process_looped` (lines 296-314): a key
line appends the key and pessimistically allocates a row array of length
`len(lines)` (the `np.zeros(len(lines), dtype=object)` fill value is
modelled as the empty string); a value line feeds its tokens to
`loopToken`. -/
def loopLine (linesLen : Nat) (st : LoopedState) (line : Line) : LoopedState :=
  if strStarts line ['_'] then
    let key := (splitOnChar '.' line).getD 1 []
    { st with
        dict := dictInsertL st.dict key (List.replicate linesLen [])
        keys := st.keys ++ [key]
        keysLength := st.keys.length + 1 }
  else (shlexTokens line).foldl loopToken st

/-- Embedding of `_process_looped` (lines 289-318): fold the line
processing over the category lines, then trim every column to the final
row index `i`. -/
def process_looped (lines : List Line) : List (Line × List Line) :=
  let fin := lines.foldl (loopLine lines.length) ⟨[], [], 0, 0, 0⟩
  fin.dict.map (fun e => (e.1, e.2.take fin.i))

end PDBx

/-! Helper lemmas and theorems for the hydrogen-bond detector. -/

namespace Biotite

theorem zipWith3_map3 {β β1 β2 β3 ε : Type} (f : β1 → β2 → β3 → ε)
    (g1 : β → β1) (g2 : β → β2) (g3 : β → β3) (l : List β) :
    zipWith3 f (l.map g1) (l.map g2) (l.map g3)
      = l.map (fun x => f (g1 x) (g2 x) (g3 x)) := by
  induction l with
  | nil => rfl
  | cons x xs ih => simp only [List.map_cons, zipWith3, ih]

theorem maskVectorized_eq_pointwise {α : Type} [Inhabited α]
    (crit : α → α → α → Bool) (coord : List (List α)) (trips : List Triplet) :
    maskVectorized crit coord trips = maskPointwise crit coord trips := by
  unfold maskVectorized maskPointwise
  simp only [zipWith3_map3]

theorem range_map_getD {β γ : Type} (l : List β) (d : β) (H : β → γ) :
    (List.range l.length).map (fun i => H (l.getD i d)) = l.map H := by
  induction l with
  | nil => rfl
  | cons x xs ih =>
    rw [List.length_cons, List.range_succ_eq_map, List.map_cons, List.map_map]
    have hcomp : ((fun i => H ((x :: xs).getD i d)) ∘ (· + 1))
        = fun i => H (xs.getD i d) := rfl
    rw [hcomp, ih]
    rfl

theorem maskPerFrame_eq_pointwise {α : Type} [Inhabited α]
    (crit : α → α → α → Bool) (coord : List (List α)) (trips : List Triplet) :
    maskPerFrame crit coord trips = maskPointwise crit coord trips := by
  have h := range_map_getD coord [] (fun (fr : List α) => zipWith3 crit
    (trips.map fun t => fr.getD t.1 default)
    (trips.map fun t => fr.getD t.2.1 default)
    (trips.map fun t => fr.getD t.2.2 default))
  have h2 : coord.map (fun (fr : List α) => zipWith3 crit
      (trips.map fun t => fr.getD t.1 default)
      (trips.map fun t => fr.getD t.2.1 default)
      (trips.map fun t => fr.getD t.2.2 default))
      = maskPointwise crit coord trips := by
    unfold maskPointwise
    simp only [zipWith3_map3]
  exact h.trans h2

theorem hbondPass_vectorized_eq {α : Type} [Inhabited α] (near : α → α → Bool)
    (crit : α → α → α → Bool) (atoms : AtomArrayStack α)
    (dsel asel : List Bool) (de ae : List String) :
    hbondPass near crit atoms dsel asel de ae true
      = hbondPass near crit atoms dsel asel de ae false := by
  unfold hbondPass
  cases passCandidates near atoms dsel asel de ae with
  | error e => rfl
  | ok l =>
    simp only [maskVectorized_eq_pointwise, maskPerFrame_eq_pointwise,
      Bool.false_eq_true, if_true, if_false]

theorem hbond_vectorized_eq {α : Type} [Inhabited α] (near : α → α → Bool)
    (crit : α → α → α → Bool) (atoms : AtomArrayStack α)
    (s1 s2 : Option (List Bool)) (ty : String) (de ae : List String) :
    hbond near crit atoms s1 s2 ty de ae true
      = hbond near crit atoms s1 s2 ty de ae false := by
  unfold hbond hbondResolved
  cases resolveSelection2Type ty with
  | none => rfl
  | some ty2 => simp only [hbondPass_vectorized_eq]

/-- C2: the vectorized batch evaluation and the per-model loop of the
geometric test produce identical boolean presence masks on every set of
candidate triplets and every multi-model ensemble, and `hbond` called
with `vectorized=True` and with `vectorized=False` returns equal results
on the same input. -/
theorem C2_vectorized_equivalence :
    (∀ (α : Type) [Inhabited α] (crit : α → α → α → Bool)
        (coord : List (List α)) (trips : List Triplet),
      maskVectorized crit coord trips = maskPerFrame crit coord trips) ∧
    (∀ (α : Type) [Inhabited α] (near : α → α → Bool) (crit : α → α → α → Bool)
        (atoms : AtomArrayStack α) (s1 s2 : Option (List Bool)) (ty : String)
        (de ae : List String),
      hbond near crit atoms s1 s2 ty de ae true
        = hbond near crit atoms s1 s2 ty de ae false) :=
  ⟨fun _ _ crit coord trips =>
    (maskVectorized_eq_pointwise crit coord trips).trans
      (maskPerFrame_eq_pointwise crit coord trips).symm,
   fun _ _ near crit atoms s1 s2 ty de ae =>
    hbond_vectorized_eq near crit atoms s1 s2 ty de ae⟩

/-- C1, evaluation at a failing input: a two-model stack with a single
carbon atom has no candidate triplets, and `hbond` returns the empty
triplet list together with the `np.empty((len(atoms), 3))` mask — a
2 × 3 (uninitialized) matrix rather than the documented 2 × 0 matrix. -/
theorem C1_failing_eval :
    hbond (fun (_ _ : Unit) => true) (fun _ _ _ => true)
        ⟨["C"], [1], [[()], [()]]⟩ none none "both" ["O", "N", "S"]
        ["O", "N", "S"] true
      = .ok ([], npEmptyBool 2 3) ∧
    (npEmptyBool 2 3).length = 2 ∧ ∀ row ∈ npEmptyBool 2 3, row.length = 3 := by
  refine ⟨rfl, rfl, ?_⟩
  decide

end Biotite

/-! Lemmas for the directional-pass symmetry. -/

namespace Biotite

theorem zipWith_and_replicate_false {f : String → Bool} (n : Nat) (l : List String) :
    List.zipWith (fun b e => b && f e) (List.replicate n false) l
      = List.replicate (min n l.length) false := by
  induction n generalizing l with
  | zero => simp
  | succ m ih =>
    cases l with
    | nil => simp
    | cons x xs =>
      simp only [List.replicate_succ, List.zipWith_cons_cons, Bool.false_and,
        List.length_cons, Nat.succ_min_succ, ih]

theorem whereTrue_replicate_false (n : Nat) :
    whereTrue (List.replicate n false) = [] := by
  induction n with
  | zero => rfl
  | succ m ih => simp [List.replicate_succ, whereTrue, ih]

theorem hbondPass_false_donors {α : Type} [Inhabited α] (near : α → α → Bool)
    (crit : α → α → α → Bool) (atoms : AtomArrayStack α) (asel : List Bool)
    (de ae : List String) (vec : Bool) :
    hbondPass near crit atoms (List.replicate atoms.array_length false) asel de ae vec
      = .ok ([], npEmptyBool atoms.nModels 3) := by
  unfold hbondPass passCandidates get_bonded_hydrogen get_triplets
  simp [zipWith_and_replicate_false, whereTrue_replicate_false,
    AtomArrayStack.array_length]

theorem hbondResolved_eq {α : Type} [Inhabited α] (near : α → α → Bool)
    (crit : α → α → α → Bool) (atoms : AtomArrayStack α)
    (s1 s2 : Option (List Bool)) (ty1 ty2 : String) (de ae : List String)
    (vec : Bool) :
    hbondResolved near crit atoms s1 s2 ty1 ty2 de ae vec =
      (match hbondPass near crit atoms (buildSelections atoms s1 ty1).1
          (buildSelections atoms s2 ty2).2 de ae vec with
       | .error e => .error e
       | .ok r1 =>
         if (buildSelections atoms s1 ty1).1 == (buildSelections atoms s2 ty2).1
             && (buildSelections atoms s1 ty1).2 == (buildSelections atoms s2 ty2).2
         then .ok r1
         else
           match hbondPass near crit atoms (buildSelections atoms s2 ty2).1
               (buildSelections atoms s1 ty1).2 de ae vec with
           | .error e => .error e
           | .ok r2 =>
             if (r1.1 ++ r2.1).isEmpty then
               .ok (r1.1 ++ r2.1, List.zipWith (· ++ ·) r1.2 r2.2)
             else
               .ok ((npUniqueRows (r1.1 ++ r2.1)).1,
                 (List.zipWith (· ++ ·) r1.2 r2.2).map (fun row =>
                   (npUniqueRows (r1.1 ++ r2.1)).2.map (fun idx => row.getD idx false)))) := rfl

/-- C5: calling `hbond` with `(selection1=A, selection2=B,
selection1_type='donor')` and with `(selection1=B, selection2=A,
selection1_type='acceptor')` yields the same triplet array, because
`selection2`'s role is resolved as the complement of `selection1_type`
and the same two directional passes are run (with the degenerate
all-`False` pass contributing no triplets). -/
theorem C5_selection_symmetry {α : Type} [Inhabited α] (near : α → α → Bool)
    (crit : α → α → α → Bool) (atoms : AtomArrayStack α)
    (A B : Option (List Bool)) (de ae : List String) (vec : Bool) :
    (hbond near crit atoms A B "donor" de ae vec).map Prod.fst
      = (hbond near crit atoms B A "acceptor" de ae vec).map Prod.fst := by
  rw [show hbond near crit atoms A B "donor" de ae vec
        = hbondResolved near crit atoms A B "donor" "acceptor" de ae vec from rfl]
  rw [show hbond near crit atoms B A "acceptor" de ae vec
        = hbondResolved near crit atoms B A "acceptor" "donor" de ae vec from rfl]
  rw [hbondResolved_eq, hbondResolved_eq]
  rw [show buildSelections atoms A "donor"
        = (A.getD (List.replicate atoms.array_length true),
           List.replicate atoms.array_length false) from rfl]
  rw [show buildSelections atoms B "acceptor"
        = (List.replicate atoms.array_length false,
           B.getD (List.replicate atoms.array_length true)) from rfl]
  dsimp only
  rw [hbondPass_false_donors near crit atoms]
  by_cases h1 : A.getD (List.replicate atoms.array_length true)
      = List.replicate atoms.array_length false
  · by_cases h2 : B.getD (List.replicate atoms.array_length true)
        = List.replicate atoms.array_length false
    · rw [h1, h2, hbondPass_false_donors near crit atoms]
    · have hc1 : ((A.getD (List.replicate atoms.array_length true)
          == List.replicate atoms.array_length false)
          && (List.replicate atoms.array_length false
          == B.getD (List.replicate atoms.array_length true))) = false := by
        simp only [Bool.and_eq_false_iff]
        right
        simp only [beq_eq_false_iff_ne, ne_eq]
        exact fun h => h2 h.symm
      have hc2 : ((List.replicate atoms.array_length false
          == A.getD (List.replicate atoms.array_length true))
          && (B.getD (List.replicate atoms.array_length true)
          == List.replicate atoms.array_length false)) = false := by
        simp only [Bool.and_eq_false_iff]
        right
        simp only [beq_eq_false_iff_ne, ne_eq]
        exact h2
      rw [hc1, hc2]
      cases hres : hbondPass near crit atoms
          (A.getD (List.replicate atoms.array_length true))
          (B.getD (List.replicate atoms.array_length true)) de ae vec with
      | error e => simp
      | ok r =>
        simp only [Bool.false_eq_true, if_false, List.append_nil, List.nil_append]
        by_cases he : r.1.isEmpty <;> simp [he, Except.map]
  · have hc1 : ((A.getD (List.replicate atoms.array_length true)
        == List.replicate atoms.array_length false)
        && (List.replicate atoms.array_length false
        == B.getD (List.replicate atoms.array_length true))) = false := by
      simp only [Bool.and_eq_false_iff]
      left
      simp only [beq_eq_false_iff_ne, ne_eq]
      exact h1
    have hc2 : ((List.replicate atoms.array_length false
        == A.getD (List.replicate atoms.array_length true))
        && (B.getD (List.replicate atoms.array_length true)
        == List.replicate atoms.array_length false)) = false := by
      simp only [Bool.and_eq_false_iff]
      left
      simp only [beq_eq_false_iff_ne, ne_eq]
      exact fun h => h1 h.symm
    rw [hc1, hc2]
    cases hres : hbondPass near crit atoms
        (A.getD (List.replicate atoms.array_length true))
        (B.getD (List.replicate atoms.array_length true)) de ae vec with
    | error e => simp
    | ok r =>
      simp only [Bool.false_eq_true, if_false, List.append_nil, List.nil_append]
      by_cases he : r.1.isEmpty <;> simp [he, Except.map]

end Biotite

/-! The real-valued geometric criterion. -/

namespace Biotite

/-- C4: the hydrogen-bond criterion holds if and only if the angle
∠(D,H,A) is strictly greater than the angle cutoff (converted to
radians) and the distance |H−A| is at most the distance cutoff; a
geometry exactly at the angle cutoff is not a hydrogen bond, while one
exactly at the distance cutoff with a passing angle is. -/
theorem C4_criterion :
    (∀ d h a : ℝ × ℝ × ℝ, ∀ cd ca : ℝ,
      is_hbond d h a cd ca ↔ (deg2rad ca < angle3 d h a ∧ distance3 h a ≤ cd)) ∧
    (∀ d h a : ℝ × ℝ × ℝ, ∀ cd ca : ℝ,
      angle3 d h a = deg2rad ca → ¬ is_hbond d h a cd ca) ∧
    (∀ d h a : ℝ × ℝ × ℝ, ∀ cd ca : ℝ,
      distance3 h a = cd → deg2rad ca < angle3 d h a → is_hbond d h a cd ca) := by
  refine ⟨fun d h a cd ca => Iff.rfl, fun d h a cd ca hang hib => ?_,
    fun d h a cd ca hdist hang => ⟨hang, le_of_eq hdist⟩⟩
  have hlt := hib.1
  rw [hang] at hlt
  exact lt_irrefl _ hlt

theorem angle3_flat :
    angle3 ((1 : ℝ), 0, 0) (0, 0, 0) ((-1 : ℝ), 0, 0) = Real.pi := by
  unfold angle3 norm3 sub3 dot3
  norm_num

theorem distance3_unit :
    distance3 ((0 : ℝ), 0, 0) ((-1 : ℝ), 0, 0) = 1 := by
  unfold distance3 norm3 sub3 dot3
  norm_num

/-- Witness for C4 at concrete geometry: collinear D-H-A has angle
exactly `deg2rad 180` and is rejected at a 180° cutoff, while the same
points at distance exactly the cutoff 1 with a 90° cutoff are
accepted. -/
theorem C4_witness :
    (¬ is_hbond ((1 : ℝ), 0, 0) (0, 0, 0) ((-1 : ℝ), 0, 0) 5 180) ∧
    is_hbond ((1 : ℝ), 0, 0) (0, 0, 0) ((-1 : ℝ), 0, 0) 1 90 := by
  constructor
  · exact C4_criterion.2.1 _ _ _ 5 180 (by rw [angle3_flat]; unfold deg2rad; ring)
  · refine C4_criterion.2.2 _ _ _ 1 90 distance3_unit ?_
    rw [angle3_flat]
    unfold deg2rad
    have : (90 : ℝ) * Real.pi / 180 = Real.pi / 2 := by ring
    rw [this]
    exact half_lt_self Real.pi_pos

end Biotite

/-! The frequency reducer. -/

namespace Biotite

theorem getD_map_lt {β γ : Type} (f : β → γ) (l : List β) (k : Nat) (d : γ)
    (d' : β) (h : k < l.length) : (l.map f).getD k d = f (l.getD k d') := by
  induction l generalizing k with
  | nil => simp at h
  | cons x xs ih =>
    cases k with
    | zero => rfl
    | succ m => exact ih m (Nat.lt_of_succ_lt_succ h)

theorem getD_zipWith_lt {β γ δ : Type} (f : β → γ → δ) (l1 : List β)
    (l2 : List γ) (k : Nat) (d : δ) (d1 : β) (d2 : γ)
    (h1 : k < l1.length) (h2 : k < l2.length) :
    (List.zipWith f l1 l2).getD k d = f (l1.getD k d1) (l2.getD k d2) := by
  induction l1 generalizing l2 k with
  | nil => simp at h1
  | cons x xs ih =>
    cases l2 with
    | nil => simp at h2
    | cons y ys =>
      cases k with
      | zero => rfl
      | succ m =>
        exact ih ys m (Nat.lt_of_succ_lt_succ h1) (Nat.lt_of_succ_lt_succ h2)

theorem colSums_length (mask : List (List Bool)) (T : Nat)
    (hrow : ∀ row ∈ mask, row.length = T) (hne : mask ≠ []) :
    (colSums mask).length = T := by
  induction mask with
  | nil => cases hne rfl
  | cons r rs ih =>
    cases rs with
    | nil =>
      show (r.map fun b => if b then 1 else 0).length = T
      rw [List.length_map]
      exact hrow r (List.mem_cons_self r [])
    | cons r2 rs2 =>
      show (List.zipWith (· + ·) (r.map fun b => if b then 1 else 0)
        (colSums (r2 :: rs2))).length = T
      rw [List.length_zipWith, List.length_map,
        hrow r (List.mem_cons_self r (r2 :: rs2)),
        ih (fun row hr => hrow row (List.mem_cons_of_mem r hr)) (by simp)]
      exact Nat.min_self T

theorem colSums_getD (mask : List (List Bool)) (T : Nat)
    (hrow : ∀ row ∈ mask, row.length = T) (t : Nat) (ht : t < T)
    (hne : mask ≠ []) :
    (colSums mask).getD t 0 = colCount mask t := by
  induction mask with
  | nil => cases hne rfl
  | cons r rs ih =>
    have hr : r.length = T := hrow r (List.mem_cons_self r rs)
    cases rs with
    | nil =>
      show (r.map fun b => if b then 1 else 0).getD t 0 = colCount [r] t
      rw [getD_map_lt _ _ _ _ false (hr ▸ ht)]
      unfold colCount
      simp [List.count_cons]
    | cons r2 rs2 =>
      have hrows2 : ∀ row ∈ r2 :: rs2, row.length = T :=
        fun row hrm => hrow row (List.mem_cons_of_mem r hrm)
      have hlen2 : (colSums (r2 :: rs2)).length = T :=
        colSums_length (r2 :: rs2) T hrows2 (by simp)
      show (List.zipWith (· + ·) (r.map fun b => if b then 1 else 0)
        (colSums (r2 :: rs2))).getD t 0 = colCount (r :: r2 :: rs2) t
      rw [getD_zipWith_lt _ _ _ _ _ 0 0 (by rw [List.length_map, hr]; exact ht)
        (hlen2 ▸ ht)]
      rw [getD_map_lt _ _ _ _ false (hr ▸ ht)]
      rw [ih hrows2 (by simp)]
      unfold colCount
      simp only [List.map_cons, List.count_cons]
      rcases hb : r.getD t false <;> simp [Nat.add_comm]

/-- C6: for every M×T boolean presence mask with M ≥ 1 and uniform row
length T, `hbond_frequency` returns a length-T vector whose entry `t` is
the number of `true` entries in column `t` divided by M; every entry
lies in [0,1], an all-`true` column maps to 1 and an all-`false` column
maps to 0. -/
theorem C6_frequency (mask : List (List Bool)) (T : Nat)
    (hM : 0 < mask.length) (hrow : ∀ row ∈ mask, row.length = T) :
    (hbond_frequency mask).length = T ∧
    ∀ t, t < T →
      ((hbond_frequency mask).getD t 0 = (colCount mask t : ℚ) / (mask.length : ℚ) ∧
       0 ≤ (hbond_frequency mask).getD t 0 ∧
       (hbond_frequency mask).getD t 0 ≤ 1 ∧
       ((∀ row ∈ mask, row.getD t false = true) →
         (hbond_frequency mask).getD t 0 = 1) ∧
       ((∀ row ∈ mask, row.getD t false = false) →
         (hbond_frequency mask).getD t 0 = 0)) := by
  have hne : mask ≠ [] := by
    intro h
    rw [h] at hM
    exact absurd hM (by simp)
  have hlen : (colSums mask).length = T := colSums_length mask T hrow hne
  constructor
  · unfold hbond_frequency
    rw [List.length_map]
    exact hlen
  · intro t ht
    have hentry : (hbond_frequency mask).getD t 0
        = (colCount mask t : ℚ) / (mask.length : ℚ) := by
      unfold hbond_frequency
      rw [getD_map_lt (fun s : Nat => (s : ℚ) / (mask.length : ℚ))
        (colSums mask) t 0 0 (by rw [hlen]; exact ht)]
      rw [colSums_getD mask T hrow t ht hne]
    have hcle : colCount mask t ≤ mask.length := by
      unfold colCount
      calc (mask.map (fun row => row.getD t false)).count true
          ≤ (mask.map (fun row => row.getD t false)).length :=
            List.count_le_length _ _
        _ = mask.length := List.length_map mask _
    have hMq : (0 : ℚ) < (mask.length : ℚ) := by exact_mod_cast hM
    refine ⟨hentry, ?_, ?_, ?_, ?_⟩
    · rw [hentry]
      positivity
    · rw [hentry, div_le_one hMq]
      exact_mod_cast hcle
    · intro hall
      rw [hentry]
      have hc : colCount mask t = mask.length := by
        unfold colCount
        rw [← List.length_map mask (fun row => row.getD t false)]
        rw [List.count_eq_length]
        intro b hb
        obtain ⟨row, hrm, hbr⟩ := List.mem_map.mp hb
        rw [← hbr, hall row hrm]
      rw [hc]
      exact div_self (ne_of_gt hMq)
    · intro hall
      rw [hentry]
      have hc : colCount mask t = 0 := by
        unfold colCount
        rw [List.count_eq_zero]
        intro hmem
        obtain ⟨row, hrm, hr⟩ := List.mem_map.mp hmem
        rw [hall row hrm] at hr
        exact Bool.false_ne_true hr
      rw [hc]
      simp

/-- Witness for C6 on the concrete mask [[T,T],[T,F]]: frequencies are
[1, 1/2]. -/
theorem C6_witness :
    (hbond_frequency [[true, true], [true, false]]).length = 2 ∧
    (hbond_frequency [[true, true], [true, false]]).getD 0 0 = 1 ∧
    (hbond_frequency [[true, true], [true, false]]).getD 1 0 = (1 : ℚ) / 2 := by
  have h := C6_frequency [[true, true], [true, false]] 2 (by decide)
    (by decide)
  refine ⟨h.1, (h.2 0 (by decide)).2.2.2.1 (by decide), ?_⟩
  rw [(h.2 1 (by decide)).1]
  have hc : colCount [[true, true], [true, false]] 1 = 1 := by decide
  rw [hc]
  norm_num

end Biotite

/-! Pruning of never-counted triplets. -/

namespace Biotite

theorem listGetD_mem {β : Type} (l : List β) (k : Nat) (d : β) (h : k < l.length) :
    l.getD k d ∈ l := by
  rw [List.getD_eq_getElem?_getD, List.getElem?_eq_getElem h]
  exact List.getElem_mem h

theorem mem_of_getElem?_some {β : Type} {l : List β} {i : Nat} {a : β}
    (h : l[i]? = some a) : a ∈ l := by
  obtain ⟨hlt, rfl⟩ := List.getElem?_eq_some.mp h
  exact List.getElem_mem hlt

theorem getD_range (n i : Nat) (d : Nat) (h : i < n) :
    (List.range n).getD i d = i := by
  rw [List.getD_eq_getElem?_getD, List.getElem?_range h]
  rfl

theorem mem_whereTrue (sel : List Bool) (i : Nat) (h : i ∈ whereTrue sel) :
    sel.getD i false = true ∧ i < sel.length := by
  induction sel generalizing i with
  | nil => simp [whereTrue] at h
  | cons b rest ih =>
    simp only [whereTrue] at h
    by_cases hb : b
    · rw [if_pos hb] at h
      rcases List.mem_cons.mp h with h0 | hmem
      · subst h0
        exact ⟨by simpa using hb, by simp⟩
      · obtain ⟨j, hj, rfl⟩ := List.mem_map.mp hmem
        obtain ⟨hg, hl⟩ := ih j hj
        exact ⟨hg, by simpa using hl⟩
    · rw [if_neg hb] at h
      obtain ⟨j, hj, rfl⟩ := List.mem_map.mp h
      obtain ⟨hg, hl⟩ := ih j hj
      exact ⟨hg, by simpa using hl⟩

theorem boolSelect_eq_map_getD {β : Type} (xs : List β) (sel : List Bool) (d : β)
    (h : xs.length = sel.length) :
    boolSelect xs sel = (whereTrue sel).map (fun i => xs.getD i d) := by
  induction sel generalizing xs with
  | nil =>
    cases xs with
    | nil => rfl
    | cons x xs' => simp at h
  | cons b rest ih =>
    cases xs with
    | nil => simp at h
    | cons x xs' =>
      have h' : xs'.length = rest.length := by simpa using h
      simp only [boolSelect, List.zip_cons_cons, List.filterMap_cons, whereTrue]
      by_cases hb : b
      · rw [if_pos hb]
        simp only [if_pos hb, List.map_cons, List.map_map]
        have hrec := ih xs' h'
        unfold boolSelect at hrec
        rw [hrec]
        rfl
      · rw [if_neg hb]
        simp only [if_neg hb, List.map_map]
        have hrec := ih xs' h'
        unfold boolSelect at hrec
        rw [hrec]
        rfl

theorem length_boolSelect {β : Type} (xs : List β) (sel : List Bool) (d : β)
    (h : xs.length = sel.length) :
    (boolSelect xs sel).length = (whereTrue sel).length := by
  rw [boolSelect_eq_map_getD xs sel d h, List.length_map]

theorem colAny_exists_idx (mask : List (List Bool)) (t : Nat) :
    colAny mask t = true ↔
      ∃ (i : Nat) (row : List Bool), mask[i]? = some row ∧ row.getD t false = true := by
  unfold colAny
  rw [List.any_eq_true]
  constructor
  · rintro ⟨row, hm, hr⟩
    obtain ⟨i, hi⟩ := List.mem_iff_getElem?.mp hm
    exact ⟨i, row, hi, hr⟩
  · rintro ⟨i, row, hi, hr⟩
    exact ⟨row, mem_of_getElem?_some hi, hr⟩

theorem getElem?_zipWith {β γ δ : Type} (f : β → γ → δ) (l1 : List β)
    (l2 : List γ) (i : Nat) :
    (List.zipWith f l1 l2)[i]? =
      match l1[i]?, l2[i]? with
      | some a, some b => some (f a b)
      | _, _ => none := by
  induction l1 generalizing l2 i with
  | nil => simp
  | cons x xs ih =>
    cases l2 with
    | nil => simp
    | cons y ys =>
      cases i with
      | zero => simp
      | succ m => simpa using ih ys m

theorem getD_append_left' {β : Type} (l1 l2 : List β) (j : Nat) (d : β)
    (h : j < l1.length) : (l1 ++ l2).getD j d = l1.getD j d := by
  rw [List.getD_eq_getElem?_getD, List.getElem?_append_left h,
    ← List.getD_eq_getElem?_getD]

theorem getD_append_right' {β : Type} (l1 l2 : List β) (j : Nat) (d : β)
    (h : l1.length ≤ j) :
    (l1 ++ l2).getD j d = l2.getD (j - l1.length) d := by
  rw [List.getD_eq_getElem?_getD, List.getElem?_append_right h,
    ← List.getD_eq_getElem?_getD]

theorem mem_insertTriplet (x y : Triplet) (l : List Triplet) :
    y ∈ insertTriplet x l ↔ y = x ∨ y ∈ l := by
  induction l with
  | nil => simp [insertTriplet]
  | cons z zs ih =>
    unfold insertTriplet
    by_cases h : tripLe x z
    · simp [h]
    · simp only [if_neg h, List.mem_cons, ih]
      tauto

theorem mem_sortTriplets (x : Triplet) (l : List Triplet) :
    x ∈ sortTriplets l ↔ x ∈ l := by
  unfold sortTriplets
  induction l with
  | nil => simp
  | cons z zs ih =>
    simp only [List.foldr_cons, mem_insertTriplet, List.mem_cons, ih]

theorem hbondPass_error {α : Type} [Inhabited α] (near : α → α → Bool)
    (crit : α → α → α → Bool) (atoms : AtomArrayStack α)
    (dsel asel : List Bool) (de ae : List String) (vec : Bool) (e : String)
    (hc : passCandidates near atoms dsel asel de ae = .error e) :
    hbondPass near crit atoms dsel asel de ae vec = .error e := by
  unfold hbondPass
  rw [hc]

theorem hbondPass_eq_of_candidates {α : Type} [Inhabited α] (near : α → α → Bool)
    (crit : α → α → α → Bool) (atoms : AtomArrayStack α)
    (dsel asel : List Bool) (de ae : List String) (vec : Bool)
    (l : List Triplet)
    (hc : passCandidates near atoms dsel asel de ae = .ok l)
    (hne : l.isEmpty = false) :
    hbondPass near crit atoms dsel asel de ae vec = .ok
      (boolSelect l ((List.range l.length).map
        (fun t => colAny (maskPointwise crit atoms.coord l) t)),
       (maskPointwise crit atoms.coord l).map (fun row =>
         boolSelect row ((List.range l.length).map
           (fun t => colAny (maskPointwise crit atoms.coord l) t)))) := by
  unfold hbondPass
  rw [hc]
  simp only [hne, Bool.false_eq_true, if_false, maskVectorized_eq_pointwise,
    maskPerFrame_eq_pointwise, ite_self]

theorem maskPointwise_length {α : Type} [Inhabited α] (crit : α → α → α → Bool)
    (coord : List (List α)) (l : List Triplet) :
    (maskPointwise crit coord l).length = coord.length := by
  unfold maskPointwise
  rw [List.length_map]

theorem maskPointwise_rows {α : Type} [Inhabited α] (crit : α → α → α → Bool)
    (coord : List (List α)) (l : List Triplet) :
    ∀ row ∈ maskPointwise crit coord l, row.length = l.length := by
  intro row hrow
  unfold maskPointwise at hrow
  obtain ⟨fr, _, rfl⟩ := List.mem_map.mp hrow
  rw [List.length_map]

theorem hbondPass_spec {α : Type} [Inhabited α] (near : α → α → Bool)
    (crit : α → α → α → Bool) (atoms : AtomArrayStack α)
    (dsel asel : List Bool) (de ae : List String) (vec : Bool)
    (l : List Triplet)
    (hc : passCandidates near atoms dsel asel de ae = .ok l) (hne : l ≠ []) :
    ∃ t1 m1, hbondPass near crit atoms dsel asel de ae vec = .ok (t1, m1) ∧
      m1.length = atoms.coord.length ∧
      (∀ row ∈ m1, row.length = t1.length) ∧
      (∀ k, k < t1.length → colAny m1 k = true) := by
  have hne' : l.isEmpty = false := by
    cases l with
    | nil => cases hne rfl
    | cons x xs => rfl
  have hM := maskPointwise_length crit atoms.coord l
  have hrows := maskPointwise_rows crit atoms.coord l
  set M := maskPointwise crit atoms.coord l with hMdef
  set C := (List.range l.length).map (fun t => colAny M t) with hCdef
  have hClen : C.length = l.length := by
    rw [hCdef, List.length_map, List.length_range]
  have hT1 : (boolSelect l C).length = (whereTrue C).length :=
    length_boolSelect l C (0, 0, 0) hClen.symm
  refine ⟨boolSelect l C, M.map (fun row => boolSelect row C), ?_, ?_, ?_, ?_⟩
  · exact hbondPass_eq_of_candidates near crit atoms dsel asel de ae vec l hc hne'
  · rw [List.length_map]
    exact hM
  · intro row hrow
    obtain ⟨row0, hrow0, rfl⟩ := List.mem_map.mp hrow
    rw [length_boolSelect row0 C false ((hrows row0 hrow0).trans hClen.symm), hT1]
  · intro k hk
    rw [hT1] at hk
    set i := (whereTrue C).getD k 0 with hidef
    have hkmem : i ∈ whereTrue C := listGetD_mem _ k 0 hk
    obtain ⟨hCi, hilen⟩ := mem_whereTrue C _ hkmem
    have hil : i < l.length := by
      rw [← hClen]
      exact hilen
    have hCival : C.getD i false = colAny M i := by
      rw [hCdef]
      rw [getD_map_lt (fun t => colAny M t) (List.range l.length) i false 0
        (by rw [List.length_range]; exact hil)]
      rw [getD_range l.length i 0 hil]
    have hMi : colAny M i = true := by
      rw [← hCival]
      exact hCi
    obtain ⟨j, row0, hj, hr0⟩ := (colAny_exists_idx M i).mp hMi
    have hrow0mem : row0 ∈ M := mem_of_getElem?_some hj
    rw [colAny_exists_idx]
    refine ⟨j, boolSelect row0 C, ?_, ?_⟩
    · rw [List.getElem?_map, hj]
      rfl
    · rw [boolSelect_eq_map_getD row0 C false
        ((hrows row0 hrow0mem).trans hClen.symm)]
      rw [getD_map_lt (fun i' => row0.getD i' false) (whereTrue C) k false 0 hk]
      rw [← hidef]
      exact hr0

theorem colAny_append_left (m1 m2 : List (List Bool)) (j : Nat)
    (hlen : m1.length = m2.length) (hT : ∀ row ∈ m1, j < row.length)
    (h : colAny m1 j = true) :
    colAny (List.zipWith (· ++ ·) m1 m2) j = true := by
  rw [colAny_exists_idx] at h
  obtain ⟨i, row, hi, hr⟩ := h
  have hilt : i < m1.length := (List.getElem?_eq_some.mp hi).1
  have hi2lt : i < m2.length := by
    rw [← hlen]
    exact hilt
  rw [colAny_exists_idx]
  refine ⟨i, row ++ m2[i], ?_, ?_⟩
  · rw [getElem?_zipWith, hi, List.getElem?_eq_getElem hi2lt]
  · rw [getD_append_left' row m2[i] j false (hT row (mem_of_getElem?_some hi))]
    exact hr

theorem colAny_append_right (m1 m2 : List (List Bool)) (T1 j : Nat)
    (hlen : m1.length = m2.length) (hT : ∀ row ∈ m1, row.length = T1)
    (hj : T1 ≤ j) (h : colAny m2 (j - T1) = true) :
    colAny (List.zipWith (· ++ ·) m1 m2) j = true := by
  rw [colAny_exists_idx] at h
  obtain ⟨i, row2, hi, hr⟩ := h
  have hi2lt : i < m2.length := (List.getElem?_eq_some.mp hi).1
  have hi1lt : i < m1.length := by
    rw [hlen]
    exact hi2lt
  have hrowlen : m1[i].length = T1 := hT m1[i] (List.getElem_mem hi1lt)
  rw [colAny_exists_idx]
  refine ⟨i, m1[i] ++ row2, ?_, ?_⟩
  · rw [getElem?_zipWith, List.getElem?_eq_getElem hi1lt, hi]
  · rw [getD_append_right' m1[i] row2 j false (by rw [hrowlen]; exact hj),
      hrowlen]
    exact hr

theorem indexOf_lt_length_of_mem {β : Type} [BEq β] [LawfulBEq β] (a : β)
    (l : List β) (h : a ∈ l) : l.indexOf a < l.length := by
  induction l with
  | nil => simp at h
  | cons x xs ih =>
    rw [List.indexOf_cons]
    by_cases hx : (x == a) = true
    · simp [hx]
    · have hmem : a ∈ xs := by
        rcases List.mem_cons.mp h with h0 | hm
        · exact absurd (by simp [h0]) hx
        · exact hm
      simp only [hx, Bool.false_eq_true, cond_false]
      have := ih hmem
      simp
      omega

/-- C3 (amended): on every multi-model input on which `hbond` returns
`(triplets, mask)` and on which each directional pass has at least one
candidate triplet (so the degenerate `np.empty((M, 3))` branch is never
taken), every column of the returned presence mask contains at least one
`true` entry: triplets whose criterion holds in no model are pruned. -/
theorem C3_amended_nonempty_passes {α : Type} [Inhabited α] (near : α → α → Bool)
    (crit : α → α → α → Bool) (atoms : AtomArrayStack α)
    (sel1 sel2 : Option (List Bool)) (stype sty2 : String)
    (de ae : List String) (vec : Bool)
    (trips : List Triplet) (mask : List (List Bool))
    (hty : resolveSelection2Type stype = some sty2)
    (h1 : ∀ l, passCandidates near atoms (buildSelections atoms sel1 stype).1
      (buildSelections atoms sel2 sty2).2 de ae = .ok l → l ≠ [])
    (h2 : ∀ l, passCandidates near atoms (buildSelections atoms sel2 sty2).1
      (buildSelections atoms sel1 stype).2 de ae = .ok l → l ≠ [])
    (hok : hbond near crit atoms sel1 sel2 stype de ae vec = .ok (trips, mask)) :
    ∀ k, k < trips.length → colAny mask k = true := by
  unfold hbond at hok
  rw [hty] at hok
  dsimp only at hok
  rw [hbondResolved_eq] at hok
  cases hc1 : passCandidates near atoms (buildSelections atoms sel1 stype).1
      (buildSelections atoms sel2 sty2).2 de ae with
  | error e =>
    rw [hbondPass_error near crit atoms _ _ de ae vec e hc1] at hok
    cases hok
  | ok l1 =>
    obtain ⟨t1, m1, hp1, hm1len, hm1rows, hm1col⟩ :=
      hbondPass_spec near crit atoms _ _ de ae vec l1 hc1 (h1 l1 hc1)
    rw [hp1] at hok
    dsimp only at hok
    by_cases hcond : (((buildSelections atoms sel1 stype).1
        == (buildSelections atoms sel2 sty2).1)
        && ((buildSelections atoms sel1 stype).2
        == (buildSelections atoms sel2 sty2).2)) = true
    · rw [if_pos hcond] at hok
      have hpair := Except.ok.inj hok
      rw [Prod.mk.injEq] at hpair
      obtain ⟨rfl, rfl⟩ := hpair
      exact hm1col
    · rw [if_neg hcond] at hok
      cases hc2 : passCandidates near atoms (buildSelections atoms sel2 sty2).1
          (buildSelections atoms sel1 stype).2 de ae with
      | error e =>
        rw [hbondPass_error near crit atoms _ _ de ae vec e hc2] at hok
        cases hok
      | ok l2 =>
        obtain ⟨t2, m2, hp2, hm2len, hm2rows, hm2col⟩ :=
          hbondPass_spec near crit atoms _ _ de ae vec l2 hc2 (h2 l2 hc2)
        rw [hp2] at hok
        dsimp only at hok
        by_cases hemp : (t1 ++ t2).isEmpty = true
        · rw [if_pos hemp] at hok
          have hpair := Except.ok.inj hok
          rw [Prod.mk.injEq] at hpair
          obtain ⟨rfl, rfl⟩ := hpair
          intro k hk
          have hnil : t1 ++ t2 = [] := by simpa using hemp
          rw [hnil] at hk
          simp at hk
        · rw [if_neg hemp] at hok
          have hpair := Except.ok.inj hok
          rw [Prod.mk.injEq] at hpair
          obtain ⟨rfl, rfl⟩ := hpair
          intro k hk
          have hW2 : (npUniqueRows (t1 ++ t2)).2
              = (sortTriplets (t1 ++ t2).dedup).map
                (fun t => (t1 ++ t2).indexOf t) := rfl
          have hW1 : (npUniqueRows (t1 ++ t2)).1
              = sortTriplets (t1 ++ t2).dedup := rfl
          have hk' : k < (sortTriplets (t1 ++ t2).dedup).length := by
            rw [← hW1]
            exact hk
          have hkW2 : k < (npUniqueRows (t1 ++ t2)).2.length := by
            rw [hW2, List.length_map]
            exact hk'
          have hjval : (npUniqueRows (t1 ++ t2)).2.getD k 0
              = (t1 ++ t2).indexOf
                ((sortTriplets (t1 ++ t2).dedup).getD k (0, 0, 0)) := by
            rw [hW2]
            exact getD_map_lt (fun t => (t1 ++ t2).indexOf t)
              (sortTriplets (t1 ++ t2).dedup) k 0 (0, 0, 0) hk'
          have htripmem : (sortTriplets (t1 ++ t2).dedup).getD k (0, 0, 0)
              ∈ t1 ++ t2 := by
            have hmem1 := listGetD_mem (sortTriplets (t1 ++ t2).dedup) k
              (0, 0, 0) hk'
            rw [mem_sortTriplets] at hmem1
            exact List.mem_dedup.mp hmem1
          have hjlt : (npUniqueRows (t1 ++ t2)).2.getD k 0
              < t1.length + t2.length := by
            rw [hjval]
            have hx := indexOf_lt_length_of_mem _ _ htripmem
            simpa using hx
          have hcolC : colAny (List.zipWith (· ++ ·) m1 m2)
              ((npUniqueRows (t1 ++ t2)).2.getD k 0) = true := by
            by_cases hjle : (npUniqueRows (t1 ++ t2)).2.getD k 0 < t1.length
            · exact colAny_append_left m1 m2 _ (hm1len.trans hm2len.symm)
                (fun row hr => by rw [hm1rows row hr]; exact hjle)
                (hm1col _ hjle)
            · have hge : t1.length ≤ (npUniqueRows (t1 ++ t2)).2.getD k 0 :=
                Nat.le_of_not_lt hjle
              refine colAny_append_right m1 m2 t1.length _
                (hm1len.trans hm2len.symm) hm1rows hge (hm2col _ ?_)
              omega
          obtain ⟨i, rowC, hiC, hrC⟩ := (colAny_exists_idx _ _).mp hcolC
          rw [colAny_exists_idx]
          refine ⟨i, (npUniqueRows (t1 ++ t2)).2.map
            (fun idx => rowC.getD idx false), ?_, ?_⟩
          · rw [List.getElem?_map, hiC]
            rfl
          · rw [getD_map_lt (fun idx => rowC.getD idx false)
              (npUniqueRows (t1 ++ t2)).2 k false 0 hkW2]
            exact hrC

/-- C3 counterexample: on a two-model stack with a single phosphorus atom
there are no candidate triplets, `hbond` returns zero triplets together
with the modelled `np.empty((2, 3))` mask, and column 0 of that returned
mask contains no `true` entry — refuting the claim that every column of
the returned presence mask has one. -/
theorem C3_counterexample :
    hbond (fun (_ _ : Unit) => true) (fun _ _ _ => true)
        ⟨["P"], [2], [[()], [()]]⟩ none none "both" ["O", "N", "S"]
        ["O", "N", "S"] true
      = .ok ([], [[false, false, false], [false, false, false]]) ∧
    colAny [[false, false, false], [false, false, false]] 0 = false ∧
    ([[false, false, false], [false, false, false]] : List (List Bool)).length
      = 2 :=
  ⟨rfl, rfl, rfl⟩

/-- Witness for the amended C3 on a concrete two-model N-H...O input:
the returned mask's column 0 is counted in some model. -/
theorem C3_witness : colAny [[true, true], [true, true]] 0 = true := by
  have hnonempty : ∀ l : List Triplet,
      passCandidates (fun (_ _ : Unit) => true)
        (⟨["N", "H", "O"], [1, 1, 1], [[(), (), ()], [(), (), ()]]⟩ :
          AtomArrayStack Unit)
        (buildSelections ⟨["N", "H", "O"], [1, 1, 1],
          [[(), (), ()], [(), (), ()]]⟩ none "both").1
        (buildSelections ⟨["N", "H", "O"], [1, 1, 1],
          [[(), (), ()], [(), (), ()]]⟩ none "both").2
        ["O", "N", "S"] ["O", "N", "S"] = .ok l → l ≠ [] := by
    intro l hl
    have h' : (Except.ok [((0 : Nat), (1 : Nat), (2 : Nat)), (2, 1, 0)] :
        Except String (List Triplet)) = Except.ok l := hl
    cases h'
    decide
  have h := C3_amended_nonempty_passes (fun (_ _ : Unit) => true)
    (fun _ _ _ => true)
    ⟨["N", "H", "O"], [1, 1, 1], [[(), (), ()], [(), (), ()]]⟩
    none none "both" "both" ["O", "N", "S"] ["O", "N", "S"] true
    [(0, 1, 2), (2, 1, 0)] [[true, true], [true, true]]
    rfl hnonempty hnonempty rfl
  exact h 0 (by decide)

end Biotite

/-! Loop-category materialization. -/

namespace PDBx

theorem strStarts_nilPre (l : Line) : strStarts l [] = true := by
  cases l <;> rfl

theorem strStarts_cons (x p : Char) (xs ps : Line) :
    strStarts (x :: xs) (p :: ps) = ((x == p) && strStarts xs ps) := rfl

theorem splitOnChar_cons (c x : Char) (l : Line) :
    splitOnChar c (x :: l) = if (x == c) = true then [] :: splitOnChar c l
      else (x :: (splitOnChar c l).headD []) :: (splitOnChar c l).tail := rfl

theorem splitOnChar_cons_ne (c x : Char) (l : Line) (hx : (x == c) = false) :
    splitOnChar c (x :: l)
      = (x :: (splitOnChar c l).headD []) :: (splitOnChar c l).tail := by
  rw [splitOnChar_cons, if_neg (by simp [hx])]

theorem splitOnChar_sep (c : Char) (l : Line) :
    splitOnChar c (c :: l) = [] :: splitOnChar c l := by
  rw [splitOnChar_cons, if_pos (by simp)]

theorem splitOnChar_ne_nil (c : Char) (l : Line) : splitOnChar c l ≠ [] := by
  cases l with
  | nil => simp [splitOnChar]
  | cons x xs =>
    rw [splitOnChar_cons]
    split <;> simp

theorem splitOnChar_no_sep (c : Char) (l : Line)
    (h : ∀ x ∈ l, (x == c) = false) : splitOnChar c l = [l] := by
  induction l with
  | nil => rfl
  | cons x xs ih =>
    rw [splitOnChar_cons_ne c x xs (h x (List.mem_cons_self x xs)),
      ih (fun y hy => h y (List.mem_cons_of_mem x hy))]
    rfl

theorem splitOnChar_append_no_sep (c : Char) (pre rest : Line)
    (hpre : ∀ x ∈ pre, (x == c) = false) :
    splitOnChar c (pre ++ c :: rest) = pre :: splitOnChar c rest := by
  induction pre with
  | nil => exact splitOnChar_sep c rest
  | cons x xs ih =>
    rw [List.cons_append,
      splitOnChar_cons_ne c x _ (hpre x (List.mem_cons_self x xs)),
      ih (fun y hy => hpre y (List.mem_cons_of_mem x hy))]
    rfl

theorem any_map_keys_eq_false (done : List Line) (v : Line → Line × List Line)
    (k : Line) (hk : k ∉ done)
    (hfst : ∀ d, (v d).1 = d) :
    (done.map v).any (fun e => e.1 == k) = false := by
  rw [List.any_eq_false]
  intro e he
  obtain ⟨d, hd, rfl⟩ := List.mem_map.mp he
  rw [hfst d]
  simp only [beq_iff_eq]
  intro hdk
  exact hk (hdk ▸ hd)

theorem foldl_keylines (cat : Line) (L : Nat) (done rest : List Line)
    (hfresh : ∀ k ∈ rest, k ∉ done) (hnd : rest.Nodup)
    (hnodotc : ∀ x ∈ cat, (x == '.') = false)
    (hnodot : ∀ k ∈ rest, ∀ x ∈ k, (x == '.') = false) :
    (rest.map (fun k => '_' :: (cat ++ '.' :: k))).foldl (loopLine L)
      ⟨done.map (fun k => (k, List.replicate L [])), done, 0, 0, done.length⟩
    = ⟨(done ++ rest).map (fun k => (k, List.replicate L [])), done ++ rest,
       0, 0, (done ++ rest).length⟩ := by
  induction rest generalizing done with
  | nil => simp
  | cons k ks ih =>
    rw [List.map_cons, List.foldl_cons]
    have hkeyline : (splitOnChar '.' ('_' :: (cat ++ '.' :: k))).getD 1 [] = k := by
      have h1 : splitOnChar '.' (('_' :: cat) ++ '.' :: k)
          = ('_' :: cat) :: splitOnChar '.' k := by
        apply splitOnChar_append_no_sep
        intro x hx
        rcases List.mem_cons.mp hx with h0 | hm
        · subst h0
          rfl
        · exact hnodotc x hm
      have h2 : splitOnChar '.' k = [k] :=
        splitOnChar_no_sep '.' k (hnodot k (List.mem_cons_self k ks))
      rw [show '_' :: (cat ++ '.' :: k) = ('_' :: cat) ++ '.' :: k from rfl,
        h1, h2]
      rfl
    have hstep : loopLine L
        ⟨done.map (fun k' => (k', List.replicate L [])), done, 0, 0, done.length⟩
        ('_' :: (cat ++ '.' :: k))
        = ⟨(done ++ [k]).map (fun k' => (k', List.replicate L [])),
           done ++ [k], 0, 0, (done ++ [k]).length⟩ := by
      unfold loopLine dictInsertL
      rw [if_pos (show strStarts ('_' :: (cat ++ '.' :: k)) ['_'] = true by
        rw [strStarts_cons, strStarts_nilPre]
        simp)]
      dsimp only
      rw [hkeyline]
      rw [any_map_keys_eq_false done (fun k' => (k', List.replicate L [])) k
        (hfresh k (List.mem_cons_self k ks)) (fun d => rfl)]
      simp
    rw [hstep]
    have hdone' : ∀ k' ∈ ks, k' ∉ done ++ [k] := by
      intro k' hk'
      rw [List.mem_append]
      rintro (hA | hB)
      · exact hfresh k' (List.mem_cons_of_mem k hk') hA
      · rw [List.mem_singleton] at hB
        subst hB
        exact (List.nodup_cons.mp hnd).1 hk'
    have := ih (done ++ [k]) hdone' (List.nodup_cons.mp hnd).2
      (fun k' hk' => hnodot k' (List.mem_cons_of_mem k hk'))
    rw [this]
    simp

theorem loopLine_value (L : Nat) (st : LoopedState) (v : Line)
    (hv : strStarts v ['_'] = false) :
    loopLine L st v = (shlexTokens v).foldl loopToken st := by
  unfold loopLine
  rw [if_neg (by simp [hv])]

theorem foldl_valuelines (L : Nat) (vlines : List Line) (st : LoopedState)
    (hv : ∀ v ∈ vlines, strStarts v ['_'] = false) :
    vlines.foldl (loopLine L) st
      = (vlines.flatMap shlexTokens).foldl loopToken st := by
  induction vlines generalizing st with
  | nil => rfl
  | cons v vs ih =>
    rw [List.foldl_cons, List.flatMap_cons, List.foldl_append,
      loopLine_value L st v (hv v (List.mem_cons_self v vs))]
    exact ih _ (fun v' h' => hv v' (List.mem_cons_of_mem v h'))

theorem modclass_eq (K p kx n : Nat) (hK : 0 < K) (hkx : kx < K)
    (h : p * K + kx = n) : kx = n % K ∧ p = n / K := by
  have h1 : n % K = kx := by
    rw [← h, Nat.mul_comm, Nat.mul_add_mod, Nat.mod_eq_of_lt hkx]
  have h2 : n / K = p := by
    rw [← h, Nat.mul_comm, Nat.mul_add_div hK, Nat.div_eq_of_lt hkx,
      Nat.add_zero]
  exact ⟨h1.symm, h2.symm⟩

theorem nodup_getD_ne (l : List Line) (hnd : l.Nodup) (i j : Nat)
    (hi : i < l.length) (hj : j < l.length) (hne : i ≠ j) :
    l.getD i [] ≠ l.getD j [] := by
  intro he
  apply hne
  apply (List.Nodup.getElem_inj_iff hnd).mp
  rw [List.getD_eq_getElem?_getD, List.getD_eq_getElem?_getD,
    List.getElem?_eq_getElem hi, List.getElem?_eq_getElem hj] at he
  exact he

theorem loopToken_step (L K : Nat) (keys toks : List Line)
    (hK : 0 < K) (hKeq : keys.length = K) (hnd : keys.Nodup)
    (hNL : toks.length ≤ L * K) (n : Nat) (hn : n < toks.length)
    (st : LoopedState)
    (hkeys : st.keys = keys) (hkl : st.keysLength = K)
    (hi : st.i = n / K) (hj : st.j = n % K)
    (hdlen : st.dict.length = K)
    (hdict : ∀ kx, kx < K →
      (st.dict.getD kx ([], [])).1 = keys.getD kx [] ∧
      (st.dict.getD kx ([], [])).2.length = L ∧
      ∀ p, p < L → (st.dict.getD kx ([], [])).2.getD p []
        = if p * K + kx < n then toks.getD (p * K + kx) [] else []) :
    (loopToken st (toks.getD n [])).keys = keys ∧
    (loopToken st (toks.getD n [])).keysLength = K ∧
    (loopToken st (toks.getD n [])).i = (n + 1) / K ∧
    (loopToken st (toks.getD n [])).j = (n + 1) % K ∧
    (loopToken st (toks.getD n [])).dict.length = K ∧
    ∀ kx, kx < K →
      ((loopToken st (toks.getD n [])).dict.getD kx ([], [])).1
        = keys.getD kx [] ∧
      ((loopToken st (toks.getD n [])).dict.getD kx ([], [])).2.length = L ∧
      ∀ p, p < L →
        ((loopToken st (toks.getD n [])).dict.getD kx ([], [])).2.getD p []
          = if p * K + kx < n + 1 then toks.getD (p * K + kx) [] else [] := by
  have hmodlt : n % K < K := Nat.mod_lt n hK
  have hdivlt : n / K < L := by
    rw [Nat.div_lt_iff_lt_mul hK]
    exact Nat.lt_of_lt_of_le hn hNL
  have hdict' : ∀ kx, kx < K →
      ((dictModifyL st.dict (st.keys.getD st.j [])
        (fun arr => arr.set st.i (toks.getD n []))).getD kx ([], [])).1
        = keys.getD kx [] ∧
      ((dictModifyL st.dict (st.keys.getD st.j [])
        (fun arr => arr.set st.i (toks.getD n []))).getD kx ([], [])).2.length
        = L ∧
      ∀ p, p < L → ((dictModifyL st.dict (st.keys.getD st.j [])
        (fun arr => arr.set st.i (toks.getD n []))).getD kx ([], [])).2.getD p []
        = if p * K + kx < n + 1 then toks.getD (p * K + kx) [] else [] := by
    intro kx hkx
    obtain ⟨he1, he2, he3⟩ := hdict kx hkx
    have hkxlen : kx < st.dict.length := by
      rw [hdlen]
      exact hkx
    have hmap : (dictModifyL st.dict (st.keys.getD st.j [])
        (fun arr => arr.set st.i (toks.getD n []))).getD kx ([], [])
        = (if ((st.dict.getD kx ([], [])).1 == st.keys.getD st.j []) = true
           then (st.keys.getD st.j [],
             (st.dict.getD kx ([], [])).2.set st.i (toks.getD n []))
           else st.dict.getD kx ([], [])) := by
      unfold dictModifyL
      exact Biotite.getD_map_lt _ st.dict kx ([], []) ([], []) hkxlen
    by_cases hsame : kx = n % K
    · have hbeq : ((st.dict.getD kx ([], [])).1 == st.keys.getD st.j []) = true := by
        rw [he1, hkeys, hj, hsame]
        exact beq_self_eq_true _
      rw [hmap, if_pos hbeq]
      refine ⟨by rw [hkeys, hj, hsame], ?_, ?_⟩
      · show ((st.dict.getD kx ([], [])).2.set st.i (toks.getD n [])).length = L
        rw [List.length_set]
        exact he2
      · intro p hp
        by_cases hpi : p = n / K
        · subst hpi
          rw [hi]
          show ((st.dict.getD kx ([], [])).2.set (n / K)
            (toks.getD n [])).getD (n / K) []
            = if n / K * K + kx < n + 1 then toks.getD (n / K * K + kx) [] else []
          rw [List.getD_eq_getElem?_getD, List.getElem?_set_eq_of_lt _
            (by rw [he2]; exact hdivlt)]
          have hdm := Nat.div_add_mod n K
          have harith : n / K * K + kx = n := by
            rw [hsame, Nat.mul_comm]
            exact hdm
          rw [harith, if_pos (Nat.lt_succ_self n)]
          rfl
        · rw [hi]
          show ((st.dict.getD kx ([], [])).2.set (n / K)
            (toks.getD n [])).getD p []
            = if p * K + kx < n + 1 then toks.getD (p * K + kx) [] else []
          rw [List.getD_eq_getElem?_getD, List.getElem?_set_ne
            (fun he => hpi he.symm), ← List.getD_eq_getElem?_getD]
          rw [he3 p hp]
          have hne : p * K + kx ≠ n := by
            intro he
            exact hpi (modclass_eq K p kx n hK hkx he).2
          by_cases hlt : p * K + kx < n
          · rw [if_pos hlt, if_pos (by omega)]
          · rw [if_neg hlt, if_neg (by omega)]
    · have hbeq : ((st.dict.getD kx ([], [])).1 == st.keys.getD st.j [])
          = false := by
        have hne2 : keys.getD kx [] ≠ keys.getD (n % K) [] :=
          nodup_getD_ne keys hnd kx (n % K) (by rw [hKeq]; exact hkx)
            (by rw [hKeq]; exact hmodlt) hsame
        rw [he1, hkeys, hj]
        exact beq_eq_false_iff_ne.mpr hne2
      rw [hmap, if_neg (by rw [hbeq]; exact Bool.false_ne_true)]
      refine ⟨he1, he2, ?_⟩
      intro p hp
      rw [he3 p hp]
      have hne : p * K + kx ≠ n := by
        intro he
        exact hsame (modclass_eq K p kx n hK hkx he).1
      by_cases hlt : p * K + kx < n
      · rw [if_pos hlt, if_pos (by omega)]
      · rw [if_neg hlt, if_neg (by omega)]
  have hd1 : n + 1 = K * (n / K) + (n % K + 1) := by
    conv_lhs => rw [← Nat.div_add_mod n K]
    rw [Nat.add_assoc]
  unfold loopToken
  by_cases hb : (st.j + 1 == st.keysLength) = true
  · rw [if_pos hb]
    have hbK : n % K + 1 = K := by
      rw [hj, hkl] at hb
      exact beq_iff_eq.mp hb
    have h3 : n + 1 = K * (n / K + 1) := by
      rw [hd1, hbK, Nat.mul_add, Nat.mul_one]
    have hdiv : (n + 1) / K = n / K + 1 := by
      rw [h3, Nat.mul_div_cancel_left _ hK]
    have hmod : (n + 1) % K = 0 := by
      rw [h3, Nat.mul_mod_right]
    refine ⟨hkeys, hkl, ?_, ?_, ?_, hdict'⟩
    · show st.i + 1 = (n + 1) / K
      rw [hi, hdiv]
    · show 0 = (n + 1) % K
      rw [hmod]
    · show (dictModifyL st.dict (st.keys.getD st.j [])
        (fun arr => arr.set st.i (toks.getD n []))).length = K
      unfold dictModifyL
      rw [List.length_map]
      exact hdlen
  · rw [if_neg hb]
    have hbK : n % K + 1 ≠ K := by
      intro he
      apply hb
      rw [hj, hkl]
      exact beq_iff_eq.mpr he
    have hltK : n % K + 1 < K := by
      omega
    have hdiv : (n + 1) / K = n / K := by
      rw [hd1, Nat.mul_add_div hK, Nat.div_eq_of_lt hltK, Nat.add_zero]
    have hmod : (n + 1) % K = n % K + 1 := by
      rw [hd1, Nat.mul_add_mod, Nat.mod_eq_of_lt hltK]
    refine ⟨hkeys, hkl, ?_, ?_, ?_, hdict'⟩
    · show st.i = (n + 1) / K
      rw [hi, hdiv]
    · show st.j + 1 = (n + 1) % K
      rw [hj, hmod]
    · show (dictModifyL st.dict (st.keys.getD st.j [])
        (fun arr => arr.set st.i (toks.getD n []))).length = K
      unfold dictModifyL
      rw [List.length_map]
      exact hdlen

theorem getD_replicate_nil (n p : Nat) :
    (List.replicate n ([] : Line)).getD p [] = [] := by
  rw [List.getD_eq_getElem?_getD, List.getElem?_replicate]
  split <;> rfl

theorem foldl_tokens_inv (L K : Nat) (keys toks : List Line)
    (hK : 0 < K) (hKeq : keys.length = K) (hnd : keys.Nodup)
    (hNL : toks.length ≤ L * K) :
    ∀ (ts : List Line) (n : Nat) (st : LoopedState),
    toks.drop n = ts → n ≤ toks.length →
    st.keys = keys → st.keysLength = K → st.i = n / K → st.j = n % K →
    st.dict.length = K →
    (∀ kx, kx < K →
      (st.dict.getD kx ([], [])).1 = keys.getD kx [] ∧
      (st.dict.getD kx ([], [])).2.length = L ∧
      ∀ p, p < L → (st.dict.getD kx ([], [])).2.getD p []
        = if p * K + kx < n then toks.getD (p * K + kx) [] else []) →
    ((ts.foldl loopToken st).keys = keys ∧
     (ts.foldl loopToken st).keysLength = K ∧
     (ts.foldl loopToken st).i = toks.length / K ∧
     (ts.foldl loopToken st).j = toks.length % K ∧
     (ts.foldl loopToken st).dict.length = K ∧
     ∀ kx, kx < K →
      ((ts.foldl loopToken st).dict.getD kx ([], [])).1 = keys.getD kx [] ∧
      ((ts.foldl loopToken st).dict.getD kx ([], [])).2.length = L ∧
      ∀ p, p < L →
        ((ts.foldl loopToken st).dict.getD kx ([], [])).2.getD p []
          = if p * K + kx < toks.length
            then toks.getD (p * K + kx) [] else []) := by
  intro ts
  induction ts with
  | nil =>
    intro n st hdrop hle hkeys hkl hi hj hdlen hdict
    have hlen : toks.length ≤ n := List.drop_eq_nil_iff.mp hdrop
    have heq : n = toks.length := Nat.le_antisymm hle hlen
    subst heq
    exact ⟨hkeys, hkl, hi, hj, hdlen, hdict⟩
  | cons t ts' ih =>
    intro n st hdrop hle hkeys hkl hi hj hdlen hdict
    have hn : n < toks.length := by
      by_contra hge
      have : toks.drop n = [] := List.drop_eq_nil_iff.mpr (by omega)
      rw [this] at hdrop
      cases hdrop
    have htok : toks.getD n [] = t := by
      have h0 : (toks.drop n)[0]? = some t := by
        rw [hdrop]
        simp
      rw [List.getElem?_drop, Nat.add_zero] at h0
      rw [List.getD_eq_getElem?_getD, h0]
      rfl
    have hdrop' : toks.drop (n + 1) = ts' := by
      have h2 : (toks.drop n).drop 1 = ts' := by
        rw [hdrop]
        rfl
      rw [List.drop_drop] at h2
      exact h2
    rw [List.foldl_cons, ← htok]
    obtain ⟨s1, s2, s3, s4, s5, s6⟩ := loopToken_step L K keys toks hK hKeq
      hnd hNL n hn st hkeys hkl hi hj hdlen hdict
    exact ih (n + 1) (loopToken st (toks.getD n [])) hdrop' (by omega)
      s1 s2 s3 s4 s5 s6

/-- C7: a parsed loop category with K (distinct, dot-free) key lines
followed by value lines is materialized in column-major-then-wrap order:
token `r*K + kx` lands in row `r` of key `kx`, every key's sequence has
the same length `(number of tokens) / K`, and the keys appear in order.
The capacity hypothesis reflects the pessimistic `np.zeros(len(lines))`
allocation, which a well-formed loop category always satisfies. -/
theorem C7_loop_materialization (cat : Line) (keys vlines : List Line)
    (hKne : keys ≠ []) (hnd : keys.Nodup)
    (hnodotc : ∀ x ∈ cat, (x == '.') = false)
    (hnodot : ∀ k ∈ keys, ∀ x ∈ k, (x == '.') = false)
    (hv : ∀ v ∈ vlines, strStarts v ['_'] = false)
    (hcap : (vlines.flatMap shlexTokens).length
      ≤ (keys.length + vlines.length) * keys.length) :
    (process_looped (keys.map (fun k => '_' :: (cat ++ '.' :: k))
      ++ vlines)).length = keys.length ∧
    ∀ kx, kx < keys.length →
      ((process_looped (keys.map (fun k => '_' :: (cat ++ '.' :: k))
        ++ vlines)).getD kx ([], [])).1 = keys.getD kx [] ∧
      ((process_looped (keys.map (fun k => '_' :: (cat ++ '.' :: k))
        ++ vlines)).getD kx ([], [])).2.length
        = (vlines.flatMap shlexTokens).length / keys.length ∧
      ∀ r, r < (vlines.flatMap shlexTokens).length / keys.length →
        ((process_looped (keys.map (fun k => '_' :: (cat ++ '.' :: k))
          ++ vlines)).getD kx ([], [])).2.getD r []
          = (vlines.flatMap shlexTokens).getD (r * keys.length + kx) [] := by
  have hK : 0 < keys.length := List.length_pos.mpr hKne
  have hlinelen : (keys.map (fun k => '_' :: (cat ++ '.' :: k))
      ++ vlines).length = keys.length + vlines.length := by
    rw [List.length_append, List.length_map]
  have hNL : (vlines.flatMap shlexTokens).length
      ≤ (keys.map (fun k => '_' :: (cat ++ '.' :: k)) ++ vlines).length
        * keys.length := by
    rw [hlinelen]
    exact hcap
  have h1 := foldl_keylines cat
    (keys.map (fun k => '_' :: (cat ++ '.' :: k)) ++ vlines).length [] keys
    (fun k _ hmem => (List.not_mem_nil k) hmem) hnd hnodotc hnodot
  simp only [List.map_nil, List.length_nil, List.nil_append] at h1
  have h2 := foldl_valuelines
    (keys.map (fun k => '_' :: (cat ++ '.' :: k)) ++ vlines).length vlines
    ⟨keys.map (fun k => (k, List.replicate
      ((keys.map (fun k => '_' :: (cat ++ '.' :: k)) ++ vlines).length) [])),
      keys, 0, 0, keys.length⟩ hv
  have hfold : (keys.map (fun k => '_' :: (cat ++ '.' :: k)) ++ vlines).foldl
      (loopLine (keys.map (fun k => '_' :: (cat ++ '.' :: k)) ++ vlines).length)
      ⟨[], [], 0, 0, 0⟩
      = (vlines.flatMap shlexTokens).foldl loopToken
        ⟨keys.map (fun k => (k, List.replicate
          ((keys.map (fun k => '_' :: (cat ++ '.' :: k)) ++ vlines).length) [])),
          keys, 0, 0, keys.length⟩ := by
    rw [List.foldl_append, h1, h2]
  obtain ⟨s1, s2, s3, s4, s5, s6⟩ := foldl_tokens_inv
    ((keys.map (fun k => '_' :: (cat ++ '.' :: k)) ++ vlines).length)
    keys.length keys (vlines.flatMap shlexTokens) hK rfl hnd hNL
    (vlines.flatMap shlexTokens) 0
    ⟨keys.map (fun k => (k, List.replicate
      ((keys.map (fun k => '_' :: (cat ++ '.' :: k)) ++ vlines).length) [])),
      keys, 0, 0, keys.length⟩
    (List.drop_zero _) (Nat.zero_le _) rfl rfl (Nat.zero_div _).symm
    (Nat.zero_mod _).symm (by rw [List.length_map])
    (by
      intro kx hkx
      have hgd : (keys.map (fun k => (k, List.replicate
          ((keys.map (fun k => '_' :: (cat ++ '.' :: k)) ++ vlines).length)
          ([] : Line))) : List (Line × List Line)).getD kx ([], [])
          = (keys.getD kx [], List.replicate
            ((keys.map (fun k => '_' :: (cat ++ '.' :: k)) ++ vlines).length)
            []) :=
        Biotite.getD_map_lt _ keys kx ([], []) [] hkx
      rw [hgd]
      refine ⟨rfl, List.length_replicate .., ?_⟩
      intro p hp
      rw [getD_replicate_nil, if_neg (Nat.not_lt_zero _)])
  have hproc : process_looped (keys.map (fun k => '_' :: (cat ++ '.' :: k))
      ++ vlines)
      = ((vlines.flatMap shlexTokens).foldl loopToken
        ⟨keys.map (fun k => (k, List.replicate
          ((keys.map (fun k => '_' :: (cat ++ '.' :: k)) ++ vlines).length) [])),
          keys, 0, 0, keys.length⟩).dict.map
        (fun e => (e.1, e.2.take
          ((vlines.flatMap shlexTokens).foldl loopToken
            ⟨keys.map (fun k => (k, List.replicate
              ((keys.map (fun k => '_' :: (cat ++ '.' :: k))
                ++ vlines).length) [])),
              keys, 0, 0, keys.length⟩).i)) := by
    unfold process_looped
    rw [hfold]
  have hdivle : (vlines.flatMap shlexTokens).length / keys.length
      ≤ (keys.map (fun k => '_' :: (cat ++ '.' :: k)) ++ vlines).length := by
    have hd : (vlines.flatMap shlexTokens).length / keys.length
        ≤ (keys.map (fun k => '_' :: (cat ++ '.' :: k)) ++ vlines).length
          * keys.length / keys.length := Nat.div_le_div_right hNL
    rw [Nat.mul_div_cancel _ hK] at hd
    exact hd
  constructor
  · rw [hproc, List.length_map, s5]
  · intro kx hkx
    have hkxd : kx < ((vlines.flatMap shlexTokens).foldl loopToken
        ⟨keys.map (fun k => (k, List.replicate
          ((keys.map (fun k => '_' :: (cat ++ '.' :: k)) ++ vlines).length) [])),
          keys, 0, 0, keys.length⟩).dict.length := by
      rw [s5]
      exact hkx
    obtain ⟨e1, e2, e3⟩ := s6 kx hkx
    have hgd2 := Biotite.getD_map_lt
      (fun e : Line × List Line => (e.1, e.2.take
        ((vlines.flatMap shlexTokens).foldl loopToken
          ⟨keys.map (fun k => (k, List.replicate
            ((keys.map (fun k => '_' :: (cat ++ '.' :: k))
              ++ vlines).length) [])),
            keys, 0, 0, keys.length⟩).i))
      (((vlines.flatMap shlexTokens).foldl loopToken
        ⟨keys.map (fun k => (k, List.replicate
          ((keys.map (fun k => '_' :: (cat ++ '.' :: k)) ++ vlines).length) [])),
          keys, 0, 0, keys.length⟩).dict) kx ([], []) ([], []) hkxd
    rw [hproc, hgd2, s3]
    refine ⟨e1, ?_, ?_⟩
    · rw [List.length_take, e2]
      exact Nat.min_eq_left hdivle
    · intro r hr
      have hrL : r < (keys.map (fun k => '_' :: (cat ++ '.' :: k))
          ++ vlines).length := Nat.lt_of_lt_of_le hr hdivle
      have htake : ((((vlines.flatMap shlexTokens).foldl loopToken
          ⟨keys.map (fun k => (k, List.replicate
            ((keys.map (fun k => '_' :: (cat ++ '.' :: k))
              ++ vlines).length) [])),
            keys, 0, 0, keys.length⟩).dict.getD kx ([], [])).2.take
          ((vlines.flatMap shlexTokens).length / keys.length)).getD r []
          = (((vlines.flatMap shlexTokens).foldl loopToken
          ⟨keys.map (fun k => (k, List.replicate
            ((keys.map (fun k => '_' :: (cat ++ '.' :: k))
              ++ vlines).length) [])),
            keys, 0, 0, keys.length⟩).dict.getD kx ([], [])).2.getD r [] := by
        rw [List.getD_eq_getElem?_getD, List.getElem?_take, if_pos hr,
          ← List.getD_eq_getElem?_getD]
      rw [htake, e3 r hrL]
      have harg : r * keys.length + kx < (vlines.flatMap shlexTokens).length := by
        have hstep1 : r * keys.length + keys.length
            = (r + 1) * keys.length := by
          ring
        have hstep2 : (r + 1) * keys.length
            ≤ ((vlines.flatMap shlexTokens).length / keys.length)
              * keys.length :=
          Nat.mul_le_mul_right keys.length (by omega)
        have hstep3 := Nat.div_mul_le_self
          (vlines.flatMap shlexTokens).length keys.length
        omega
      rw [if_pos harg]

/-- Witness for C7 on the claim's own example: keys `[a, b]` and token
order `[a1, b1, a2, b2, a3, b3]` produce `a = [a1, a2, a3]` and
`b = [b1, b2, b3]` (entries and lengths checked). -/
theorem C7_witness :
    ((process_looped (["a".toList, "b".toList].map
        (fun k => '_' :: ("c".toList ++ '.' :: k))
        ++ ["a1 b1 a2 b2 a3 b3".toList])).getD 0 ([], [])).2.getD 1 []
      = "a2".toList ∧
    ((process_looped (["a".toList, "b".toList].map
        (fun k => '_' :: ("c".toList ++ '.' :: k))
        ++ ["a1 b1 a2 b2 a3 b3".toList])).getD 1 ([], [])).2.getD 2 []
      = "b3".toList ∧
    ((process_looped (["a".toList, "b".toList].map
        (fun k => '_' :: ("c".toList ++ '.' :: k))
        ++ ["a1 b1 a2 b2 a3 b3".toList])).getD 0 ([], [])).2.length = 3 ∧
    ((process_looped (["a".toList, "b".toList].map
        (fun k => '_' :: ("c".toList ++ '.' :: k))
        ++ ["a1 b1 a2 b2 a3 b3".toList])).getD 1 ([], [])).2.length = 3 := by
  have h := C7_loop_materialization "c".toList ["a".toList, "b".toList]
    ["a1 b1 a2 b2 a3 b3".toList] (by decide) (by decide) (by decide)
    (by decide) (by decide) (by decide)
  refine ⟨?_, ?_, ?_, ?_⟩
  · rw [(h.2 0 (by decide)).2.2 1 (by decide)]
    decide
  · rw [(h.2 1 (by decide)).2.2 2 (by decide)]
    decide
  · rw [(h.2 0 (by decide)).2.1]
    decide
  · rw [(h.2 1 (by decide)).2.1]
    decide

end PDBx

namespace PDBx

/-- Searching a key in an association list is unaffected by a
key-preserving value rewrite (the first hit is the rewritten entry). -/
theorem find?_map_keypreserving (cats : CatIndex) (k : CatKey)
    (gm : CatKey × Category → CatKey × Category)
    (hkey : ∀ e, (gm e).1 = e.1) :
    (cats.map gm).find? (fun e => e.1 == k)
      = (cats.find? (fun e => e.1 == k)).map gm := by
  induction cats with
  | nil => rfl
  | cons e es ih =>
    rw [List.map_cons, List.find?_cons, List.find?_cons, hkey e]
    cases he : (e.1 == k) with
    | false => simpa using ih
    | true => simp

/-- Dict lookup through a key-preserving map yields the rewritten value
of the originally found entry. -/
theorem lookup2_map_keypreserving (cats : CatIndex) (k : CatKey)
    (gm : CatKey × Category → CatKey × Category)
    (hkey : ∀ e, (gm e).1 = e.1) :
    lookup2 (cats.map gm) k
      = (cats.find? (fun e => e.1 == k)).map (fun e => (gm e).2) := by
  unfold lookup2
  rw [find?_map_keypreserving cats k gm hkey, Option.map_map]
  rfl

/-- An entry found in the left part of an appended list is still the
first hit of the whole list. -/
theorem find?_append_left_some (cats rest : CatIndex)
    (p : CatKey × Category → Bool) (e : CatKey × Category)
    (h : cats.find? p = some e) : (cats ++ rest).find? p = some e := by
  induction cats with
  | nil => cases h
  | cons x xs ih =>
    rw [List.cons_append, List.find?_cons]
    rw [List.find?_cons] at h
    cases hx : p x with
    | true =>
      rw [hx] at h
      simp only [hx]
      exact h
    | false =>
      rw [hx] at h
      simp only [hx]
      exact ih h

/-- When `find?` misses, `any` with the same predicate is `false`. -/
theorem any_eq_false_of_find?_none (cats : CatIndex)
    (p : CatKey × Category → Bool) (h : cats.find? p = none) :
    cats.any p = false := by
  rw [List.any_eq_false]
  intro e he hp
  exact (List.find?_eq_none.mp h e he) hp

/-- Lookup after the shift pass over a key-preserving rewrite: the found
entry is shifted exactly when its `start` lies beyond the shift point. -/
theorem lookup2_shift_map (cats : CatIndex) (k : CatKey) (P d : Int)
    (g1 : CatKey × Category → CatKey × Category)
    (hkey : ∀ e, (g1 e).1 = e.1)
    (e : CatKey × Category) (hfe : cats.find? (fun e => e.1 == k) = some e) :
    lookup2 (shift_categories P d (cats.map g1)) k
      = some (if P < (g1 e).2.start then
          { (g1 e).2 with start := ((g1 e).2.start + d)
                          stop := ((g1 e).2.stop + d) }
        else (g1 e).2) := by
  unfold shift_categories
  rw [lookup2_map_keypreserving _ k _ (fun e' => by dsimp only; split <;> rfl)]
  rw [find?_map_keypreserving cats k g1 hkey, hfe]
  by_cases h : P < (g1 e).2.start
  · simp [h]
  · simp [h]

/-- Lookup of an existing key after the shift pass over the index with a
new entry appended: the old entry is shifted exactly when its `start`
lies beyond the shift point. -/
theorem lookup2_shift_append (cats : CatIndex) (k : CatKey) (P d : Int)
    (e0 : CatKey × Category)
    (e : CatKey × Category) (hfe : cats.find? (fun e => e.1 == k) = some e) :
    lookup2 (shift_categories P d (cats ++ [e0])) k
      = some (if P < e.2.start then
          { e.2 with start := (e.2.start + d)
                     stop := (e.2.stop + d) }
        else e.2) := by
  unfold shift_categories
  rw [lookup2_map_keypreserving _ k _ (fun e' => by dsimp only; split <;> rfl)]
  rw [find?_append_left_some cats [e0] _ e hfe]
  by_cases h : P < e.2.start
  · simp [h]
  · simp [h]

/-- Python dict assignment with a fresh key appends the entry. -/
theorem dictInsert_eq_append (d : CatIndex) (k : CatKey) (v : Category)
    (h : d.any (fun e => e.1 == k) = false) :
    dictInsert d k v = d ++ [(k, v)] := by
  unfold dictInsert
  rw [h]
  rfl

/-- C8: for every `set_category` call that inserts or replaces a
category (any of the three placement branches), every other stored
category keeps its `start`/`stop` unchanged when it lies at or before the
insertion point, and is shifted by exactly the net line-count delta of
the edit when its start line lies after the inserted/replaced range.
`edit_point`, `edit_end` and `edit_delta` name the insertion point, the
end of the replaced range and the net delta of each branch; the
hypothesis `hr` states the recorded line ranges are non-degenerate (as
produced by the parser). -/
theorem C8_set_category_shift (f : PDBxFile) (block category : Line)
    (rendered : List Line) (looped : Bool) (k : CatKey) (c : Category)
    (hk : k ≠ (block, category))
    (hc : lookup2 f.categories k = some c)
    (hr : ∀ info, lookup2 f.categories (block, category) = some info →
      info.start < info.stop) :
    (c.start ≤ edit_point f block category →
      lookup2 (set_category_place f block category rendered looped).categories k
        = some c) ∧
    (edit_end f block category ≤ c.start →
     edit_point f block category < c.start →
      lookup2 (set_category_place f block category rendered looped).categories k
        = some ⟨c.start + edit_delta f block category rendered,
            c.stop + edit_delta f block category rendered, c.loop,
            c.multiline⟩) := by
  obtain ⟨e, hfe, hec⟩ : ∃ e, f.categories.find? (fun e => e.1 == k) = some e
      ∧ e.2 = c := by
    unfold lookup2 at hc
    cases hfind : f.categories.find? (fun e => e.1 == k) with
    | none =>
      rw [hfind] at hc
      cases hc
    | some e =>
      rw [hfind] at hc
      exact ⟨e, rfl, by simpa using hc⟩
  have heknot : (e.1 == (block, category)) = false := by
    have hek : e.1 = k := by simpa using List.find?_some hfe
    rw [hek]
    simp only [beq_eq_false_iff_ne, ne_eq]
    exact hk
  have hlen1 : ((rendered ++ [['#']]).length : Int)
      = (rendered.length : Int) + 1 := by
    rw [List.length_append]
    push_cast
    simp
  unfold set_category_place edit_end edit_delta
  unfold edit_point
  cases hfind : f.categories.find? (fun e => e.1 == (block, category)) with
  | some entry =>
    have hinfo : entry.2.start < entry.2.stop := by
      apply hr entry.2
      unfold lookup2
      rw [hfind]
      rfl
    dsimp only
    have hmain := lookup2_shift_map f.categories k entry.2.start
      (((rendered ++ [['#']]).length : Int) - (entry.2.stop - entry.2.start))
      (fun e => if e.1 == (block, category) then
        (e.1, (⟨entry.2.start,
          entry.2.start + ((rendered ++ [['#']]).length : Int),
          looped, false⟩ : Category)) else e)
      (fun e' => by dsimp only; split <;> rfl) e hfe
    simp only [heknot, Bool.false_eq_true, if_false] at hmain
    constructor
    · intro hle
      rw [hmain, if_neg (by rw [hec]; omega)]
      rw [hec]
    · intro hend hpoint
      rw [hmain, if_pos (by rw [hec]; exact hpoint)]
      rw [hec, hlen1]
  | none =>
    have hany0 : f.categories.any (fun e => e.1 == (block, category)) = false :=
      any_eq_false_of_find?_none _ _ hfind
    dsimp only
    by_cases hblock : (f.categories.any (fun e => e.1.1 == block)) = true
    · rw [if_pos hblock, if_pos hblock]
      dsimp only
      rw [dictInsert_eq_append _ _ _ hany0]
      have hmain := lookup2_shift_append f.categories k
        (lastStopOfBlock f.categories block)
        ((rendered ++ [['#']]).length : Int)
        ((block, category), (⟨lastStopOfBlock f.categories block,
          lastStopOfBlock f.categories block
            + ((rendered ++ [['#']]).length : Int), looped, false⟩ : Category))
        e hfe
      constructor
      · intro hle
        rw [hmain, if_neg (by rw [hec]; omega)]
        rw [hec]
      · intro hend hpoint
        rw [hmain, if_pos (by rw [hec]; exact hpoint)]
        rw [hec, hlen1]
    · rw [if_neg hblock, if_neg hblock]
      dsimp only
      rw [dictInsert_eq_append _ _ _ hany0]
      have hlen2 : (([['d', 'a', 't', 'a', '_'] ++ block, ['#']]
          ++ (rendered ++ [['#']])).length : Int) - 2
          = (rendered.length : Int) + 1 := by
        simp only [List.length_append, List.length_cons, List.length_nil]
        push_cast
        ring
      have hmain := lookup2_shift_append f.categories k
        (lastStopAll f.categories + 2)
        ((([['d', 'a', 't', 'a', '_'] ++ block, ['#']]
          ++ (rendered ++ [['#']])).length : Int) - 2)
        ((block, category), (⟨lastStopAll f.categories + 2,
          lastStopAll f.categories
            + (([['d', 'a', 't', 'a', '_'] ++ block, ['#']]
              ++ (rendered ++ [['#']])).length : Int), looped, false⟩ : Category))
        e hfe
      constructor
      · intro hle
        rw [hmain, if_neg (by rw [hec]; omega)]
        rw [hec]
      · intro hend hpoint
        rw [hmain, if_pos (by rw [hec]; exact hpoint)]
        rw [hec, hlen2]

/-- C8 witness: replacing category `x` (lines 0-3) of a two-category
block with 5 rendered lines (plus the `#` terminator: net delta +3)
moves category `y` from lines 3-6 to lines 6-9. -/
theorem C8_witness :
    lookup2 (set_category_place
        ⟨[], [((['b'], ['x']), ⟨0, 3, false, false⟩),
              ((['b'], ['y']), ⟨3, 6, false, false⟩)]⟩
        ['b'] ['x'] [['1'], ['2'], ['3'], ['4'], ['5']] false).categories
      (['b'], ['y'])
      = some ⟨6, 9, false, false⟩ := by
  have h := C8_set_category_shift
    ⟨[], [((['b'], ['x']), ⟨0, 3, false, false⟩),
          ((['b'], ['y']), ⟨3, 6, false, false⟩)]⟩
    ['b'] ['x'] [['1'], ['2'], ['3'], ['4'], ['5']] false
    (['b'], ['y']) ⟨3, 6, false, false⟩
    (by decide) rfl
    (fun info hinfo => by
      have h0 : lookup2
          [((['b'], ['x']), (⟨0, 3, false, false⟩ : Category)),
           ((['b'], ['y']), ⟨3, 6, false, false⟩)]
          (['b'], ['x']) = some ⟨0, 3, false, false⟩ := rfl
      rw [h0] at hinfo
      cases hinfo
      decide)
  exact h.2 (by decide) (by decide)

end PDBx

namespace PDBx

/-- A line passing `startswith(p)` is `p` followed by a remainder. -/
theorem strStarts_shape (p l : Line) (h : strStarts l p = true) :
    ∃ rest, l = p ++ rest := by
  induction p generalizing l with
  | nil => exact ⟨l, rfl⟩
  | cons c cs ih =>
    cases l with
    | nil => cases h
    | cons x xs =>
      rw [strStarts_cons] at h
      obtain ⟨h1, h2⟩ := Bool.and_eq_true_iff.mp h
      obtain ⟨rest, hr⟩ := ih xs h2
      exact ⟨rest, by rw [beq_iff_eq.mp h1, hr]; rfl⟩

/-- C9 counterexample: parsing a two-block document whose first block
ends with an open category.  The `data_b2` line resets the parser state
without recording the open category `catA`, so the final index holds
only `(b2, catB)`; the final category of the non-final block `b1` is
absent and `get_category` cannot retrieve it. -/
theorem C9_counterexample :
    readLines ["data_b1".toList, "_catA.x 1".toList, "data_b2".toList,
        "_catB.y 2".toList]
      = .ok [(("b2".toList, "catB".toList), ⟨3, 4, false, false⟩)] ∧
    lookup2 [(("b2".toList, "catB".toList), ⟨3, 4, false, false⟩)]
        ("b1".toList, "catA".toList)
      = none :=
  ⟨rfl, rfl⟩

/-- Evaluation of `_data_block_name` on a line with the `data_` prefix
explicit. -/
theorem data_block_name_cons (rest : Line) :
    data_block_name ('d' :: 'a' :: 't' :: 'a' :: '_' :: rest) = some rest := by
  have hss : strStarts ('d' :: 'a' :: 't' :: 'a' :: '_' :: rest)
      ['d', 'a', 't', 'a', '_'] = true := by
    rw [strStarts_cons, strStarts_cons, strStarts_cons, strStarts_cons,
      strStarts_cons, strStarts_nilPre]
    decide
  unfold data_block_name
  rw [if_pos hss]
  rfl

/-- C9 (amended): when a scanned line carries a `data_` block marker,
the loop iteration (lines 36-42) only resets the parser state — the new
block becomes active, the open category, its range and its flags are
discarded, and the category index is left exactly as it was, with no
entry recorded for the category that was open.  The flush described by
the claim never happens. -/
theorem C9_data_block_line_discards (lines : List Line) (st : ReadState)
    (i : Nat) (line nm : Line)
    (h : data_block_name line = some nm) :
    readStep lines st (i, line)
      = .ok ⟨some nm, none, -1, -1, false, false, st.categories⟩ := by
  by_cases hs : strStarts line ['d', 'a', 't', 'a', '_'] = true
  · obtain ⟨rest, hrest⟩ := strStarts_shape _ _ hs
    subst hrest
    simp only [List.cons_append, List.nil_append] at h ⊢
    rw [data_block_name_cons] at h
    have hnm : rest = nm := by simpa using h
    subst hnm
    unfold readStep
    dsimp only
    rw [data_block_name_cons]
    rfl
  · unfold data_block_name at h
    rw [if_neg hs] at h
    cases h

/-- C9 witness: a `data_b2` line hit while category `catA` of block `b1`
is open (started at line 1) yields the reset state with an unchanged
index — `(b1, catA)` is not recorded. -/
theorem C9_witness :
    readStep ["data_b2".toList]
      ⟨some "b1".toList, some "catA".toList, 1, -1, false, false,
        [(("b0".toList, "c0".toList), ⟨0, 1, false, false⟩)]⟩
      (0, "data_b2".toList)
      = .ok ⟨some "b2".toList, none, -1, -1, false, false,
        [(("b0".toList, "c0".toList), ⟨0, 1, false, false⟩)]⟩ :=
  C9_data_block_line_discards ["data_b2".toList]
    ⟨some "b1".toList, some "catA".toList, 1, -1, false, false,
      [(("b0".toList, "c0".toList), ⟨0, 1, false, false⟩)]⟩
    0 "data_b2".toList "b2".toList rfl

/-- C10: `PDBxFile.copy` always raises `NameError` (the `copy` module
referenced on line 262 is never imported by the module, whose only
imports are `shlex`, `numpy` and `File`), returns no duplicate, and
leaves the receiver's lines and category index untouched. -/
theorem C10_copy_raises (f : PDBxFile) :
    (PDBxFile.copy f).2 = .error "NameError" ∧
    (PDBxFile.copy f).1.lines = f.lines ∧
    (PDBxFile.copy f).1.categories = f.categories :=
  ⟨rfl, rfl, rfl⟩

end PDBx
